import Mathlib

/-!
Shallow embedding of `estrangement/utils.py` (temporal-community metrics):
`graph_distance`, `node_graph_distance`, `Estrangement`, `match_labels`,
`confidence_interval`.

Modelling conventions:
* nodes and community labels are `Nat`; Python floats are modelled by exact
  rationals (`ℚ`), with `Real.sqrt` over `ℝ` where the code takes square roots;
* a networkx graph is a node list plus a list of edges; each edge is the tuple
  `(u, v)` as `edges_iter()` reports it (the orientation of the reported tuple
  is representation dependent and is part of the input here) together with an
  optional `'weight'` attribute;
* Python dicts are association lists; iteration order of the internal
  adjacency structures is modelled as insertion order;
* code that can raise (`ZeroDivisionError`, `KeyError`, `ValueError`,
  `IndexError`) is modelled in `Option`, with `none` for the raised exception.
-/

/-- Python `max(xs, key=itemgetter(1))` keeps the current best unless a
strictly greater key appears, so the first maximal element wins. -/
def foldMax (b : Nat × ℚ) : List (Nat × ℚ) → Nat × ℚ
  | [] => b
  | q :: qs => foldMax (if b.2 < q.2 then q else b) qs

/-- `max` over a possibly empty list; `none` models Python's `ValueError`
on an empty sequence. -/
def firstMax : List (Nat × ℚ) → Option (Nat × ℚ)
  | [] => none
  | p :: ps => some (foldMax p ps)

/-- Lookup in an association list, modelling Python dict access
(`none` = `KeyError`). -/
def alookup {α : Type} (k : Nat) : List (Nat × α) → Option α
  | [] => none
  | p :: ps => if p.1 = k then some p.2 else alookup k ps

/-- Option-valued map over a list: `none` as soon as one element fails,
modelling an exception aborting a Python loop or comprehension. -/
def omap {α β : Type} (f : α → Option β) : List α → Option (List β)
  | [] => some []
  | a :: l =>
    match f a, omap f l with
    | some b, some r => some (b :: r)
    | _, _ => none

/-- First-occurrence deduplication, keeping insertion order. -/
def dedupF : List Nat → List Nat
  | [] => []
  | a :: l => a :: (dedupF l).filter (fun x => decide (x ≠ a))

/-- A networkx graph as `utils.py` consumes it: a node list and the edge
tuples reported by `edges_iter()`, each with an optional `'weight'`. -/
structure Graph where
  nodes : List Nat
  edges : List ((Nat × Nat) × Option ℚ)

/-- The edge tuples of the graph, as `set(g.edges_iter())` sees them. -/
def Graph.tuples (g : Graph) : List (Nat × Nat) := g.edges.map Prod.fst

/-- `nx.get_edge_attributes(g, 'weight')` lookup at an edge tuple:
`none` when the edge is absent or carries no weight (`KeyError`). -/
def wOf (g : Graph) (t : Nat × Nat) : Option ℚ :=
  ((g.edges.filter (fun e => decide (e.1 = t))).head?).bind (fun e => e.2)

/-- `dot_product = sum(g0weights[i]*g1weights[i] for i in intersection)`,
the intersection being the raw tuple-set intersection. -/
def dotProd (g0 g1 : Graph) : Option ℚ :=
  (omap (fun t =>
      match wOf g0 t, wOf g1 t with
      | some a, some b => some (a * b)
      | _, _ => none)
    ((g1.tuples.inter g0.tuples).dedup)).map List.sum

/-- `sum(gweights[i]**2 for i in g.edges_iter())`. -/
def normSum (g : Graph) : Option ℚ :=
  (omap (fun t => (wOf g t).map (fun w => w * w)) g.tuples).map List.sum

/-- `graph_distance(g0, g1, weighted)` from `utils.py`:
unweighted Jaccard distance of the raw edge-tuple sets, or the weighted
Tanimoto distance; `none` models `ZeroDivisionError`/`KeyError`. -/
def graph_distance (g0 g1 : Graph) (weighted : Bool) : Option ℚ :=
  if weighted = false then
    let union := g1.tuples.toFinset ∪ g0.tuples.toFinset
    let inter := g1.tuples.toFinset ∩ g0.tuples.toFinset
    if union.card = 0 then none
    else some (((union.card : ℚ) - (inter.card : ℚ)) / (union.card : ℚ))
  else
    match dotProd g0 g1, normSum g1, normSum g0 with
    | some dp, some n1, some n0 =>
      if n0 + n1 - dp = 0 then none else some (1 - dp / (n0 + n1 - dp))
    | _, _, _ => none

/-- `node_graph_distance(g0, g1)`: Jaccard distance of the node sets. -/
def node_graph_distance (g0 g1 : Graph) : Option ℚ :=
  let i := (g0.nodes.toFinset ∩ g1.nodes.toFinset).card
  let u := (g0.nodes.toFinset ∪ g1.nodes.toFinset).card
  if u = 0 then none else some (1 - (i : ℚ) / (u : ℚ))

/-- `G.size(weight='weight')`: the sum of the edge weights of `G`, an edge
without a `'weight'` attribute counting as 1 (networkx `.get(weight, 1)`). -/
def Gsize (G : Graph) : ℚ := (G.edges.map (fun e => e.2.getD 1)).sum

/-- The numerator of `Estrangement`:
`sum([e[2]['weight'] for e in Zgraph.edges(data=True)
      if label_dict[e[0]] != label_dict[e[1]]])`.
Labels of both endpoints are looked up for every edge; the weight is read
only when the labels differ. -/
def estrNumer (Z : Graph) (ld : List (Nat × Nat)) : Option ℚ :=
  (omap (fun e =>
      match alookup e.1.1 ld, alookup e.1.2 ld with
      | some a, some b => if a ≠ b then e.2 else some (0 : ℚ)
      | _, _ => none)
    Z.edges).map List.sum

/-- `Estrangement(G, label_dict, Zgraph)` from `utils.py`. -/
def Estrangement (G : Graph) (ld : List (Nat × Nat)) (Z : Graph) : Option ℚ :=
  if Z.tuples.toFinset ∩ G.tuples.toFinset = ∅ then some 0
  else
    match estrNumer Z ld with
    | none => none
    | some num => if Gsize G = 0 then none else some (num / Gsize G)

/-- `numpy.mean`. -/
def npMean (l : List ℚ) : ℚ := l.sum / l.length

/-- `numpy.std(l) ** 2`: population variance (`ddof = 0`). -/
def npVar (l : List ℚ) : ℚ := (l.map (fun x => (x - npMean l) ^ 2)).sum / l.length

/-- A `numpy.float64` scalar as this program produces it: either the IEEE
`nan` or an exact real value. -/
inductive NpFloat where
  | nan : NpFloat
  | val : ℝ → NpFloat

/-- `confidence_interval(nums) = 1.96 * numpy.std(nums) / math.sqrt(len(nums))`.
On an empty list `numpy.std` returns `nan` (a `RuntimeWarning`, no exception)
and the `np.float64` division by `math.sqrt(0) = 0.0` follows IEEE semantics
rather than raising `ZeroDivisionError`, so the call silently returns NaN. -/
noncomputable def confidence_interval (l : List ℚ) : NpFloat :=
  if l.length = 0 then NpFloat.nan
  else NpFloat.val (1.96 * Real.sqrt ((npVar l : ℚ) : ℝ) / Real.sqrt (l.length : ℝ))

/-! ## match_labels -/

/-- The distinct labels of a snapshot's label dict, in insertion order
(`nodesets_per_label` keys). -/
def tLabels (ld : List (Nat × Nat)) : List Nat := dedupF (ld.map Prod.snd)

/-- `nodesets_per_label[l]`: the nodes carrying label `l`. -/
def groupOf (ld : List (Nat × Nat)) (l : Nat) : List Nat :=
  (ld.filter (fun p => decide (p.2 = l))).map Prod.fst

/-- `len(a & b) / float(len(a | b))` on node sets. -/
def jacc (s t : List Nat) : ℚ :=
  ((s.toFinset ∩ t.toFinset).card : ℚ) / ((s.toFinset ∪ t.toFinset).card : ℚ)

/-- The Jaccard overlap between the node set of t−1-label `lp` and the node
set of t-label `lt`. -/
def jacOf (ld pld : List (Nat × Nat)) (lp lt : Nat) : ℚ :=
  jacc (groupOf pld lp) (groupOf ld lt)

/-- The sequence of `overlap_graph.add_edge(l_t_minus_1, l_t, weight=jaccard)`
calls, in loop order (outer loop over t-labels, inner over t−1-labels). -/
def mkEvents (T P : List Nat) (j : Nat → Nat → ℚ) : List (Nat × Nat × ℚ) :=
  T.flatMap (fun lt => P.map (fun lp => (lp, lt, j lp lt)))

/-- The `add_edge` events building `overlap_graph`. -/
def overlapEvents (ld pld : List (Nat × Nat)) : List (Nat × Nat × ℚ) :=
  mkEvents (tLabels ld) (tLabels pld) (jacOf ld pld)

/-- `overlap_graph.nodes()`: each `add_edge(u, v, w)` inserts `u` then `v`. -/
def vertices (E : List (Nat × Nat × ℚ)) : List Nat :=
  dedupF (E.flatMap (fun e => [e.1, e.2.1]))

/-- The adjacency list `overlap_graph[v]` in insertion order (a self-loop
appears once). -/
def nbrs (E : List (Nat × Nat × ℚ)) (v : Nat) : List Nat :=
  dedupF (E.filterMap (fun e =>
    if e.1 = v then some e.2.1
    else if e.2.1 = v then some e.1 else none))

/-- Whether an `add_edge` event concerns the unordered pair `{u, v}`. -/
def eMatch (u v : Nat) (e : Nat × Nat × ℚ) : Bool :=
  (e.1 == u && e.2.1 == v) || (e.1 == v && e.2.1 == u)

/-- The `'weight'` attribute of edge `{u, v}`: a repeated `add_edge`
overwrites, so the last event wins.  (Every adjacency entry was created by an
`add_edge` carrying a weight, so the default branch is unreachable in use.) -/
def wtD (E : List (Nat × Nat × ℚ)) (u v : Nat) : ℚ :=
  match (E.filter (eMatch u v)).getLast? with
  | some e => e.2.2
  | none => 0

/-- `max([(nbr, data['weight']) for ...], key=itemgetter(1))[0]`:
the first neighbor of maximal weight; `none` models `ValueError` on a vertex
with no neighbors. -/
def maxwtNbr (E : List (Nat × Nat × ℚ)) (v : Nat) : Option Nat :=
  (firstMax ((nbrs E v).map (fun u => (u, wtD E v u)))).map Prod.fst

/-- `max_overlap_digraph`: one out-edge per overlap-graph vertex, pointing at
its first maximal-weight neighbor. -/
def buildD (E : List (Nat × Nat × ℚ)) : Option (List (Nat × Nat)) :=
  omap (fun v => (maxwtNbr E v).map (fun m => (v, m))) (vertices E)

/-- `match_labels(label_dict, prev_label_dict)` from `utils.py`. -/
def match_labels (ld pld : List (Nat × Nat)) : Option (List (Nat × Nat)) :=
  if pld = [] then some ld
  else
    match buildD (overlapEvents ld pld) with
    | none => none
    | some D =>
      (omap (fun lt =>
          match alookup lt D with
          | none => none
          | some m =>
            match alookup m D with
            | none => none
            | some s =>
              some ((groupOf ld lt).map (fun n => (n, if s = lt then m else lt))))
        (tLabels ld)).map List.flatten

/-! ## Spec-side definitions (formalising the claims' vocabulary) -/

/-- Canonical representative of an unordered node pair. -/
def normPair (t : Nat × Nat) : Nat × Nat := (min t.1 t.2, max t.1 t.2)

/-- The edge set of a graph under order-independent edge identity. -/
def uE (g : Graph) : Finset (Nat × Nat) := g.tuples.toFinset.image normPair

/-- Well-formedness a networkx graph guarantees: no two stored edges denote
the same unordered node pair. -/
def Graph.WF (g : Graph) : Prop := (g.edges.map (fun e => normPair e.1)).Nodup

/-- The two edge lists orient every shared unordered edge the same way. -/
def OrientConsistent (g0 g1 : Graph) : Prop :=
  ∀ t0 ∈ g0.tuples, ∀ t1 ∈ g1.tuples, normPair t0 = normPair t1 → t0 = t1

/-- Jaccard distance of the unordered edge sets, as the spec states it. -/
def specJdist (g0 g1 : Graph) : ℚ :=
  (((uE g0 ∪ uE g1).card : ℚ) - ((uE g0 ∩ uE g1).card : ℚ)) / ((uE g0 ∪ uE g1).card : ℚ)

/-- The weight a graph assigns to an unordered edge, 0 where absent. -/
def wU (g : Graph) (s : Nat × Nat) : ℚ :=
  (((g.edges.filter (fun e => decide (normPair e.1 = s))).head?).bind (fun e => e.2)).getD 0

/-- Spec-side Tanimoto dot product: over the edges present in both graphs
(order-independent identity), the product of the two weights. -/
def specDot (g0 g1 : Graph) : ℚ := (uE g0 ∩ uE g1).sum (fun s => wU g0 s * wU g1 s)

/-- Spec-side squared norm of a graph's edge-weight vector. -/
def specNormSq (g : Graph) : ℚ := (uE g).sum (fun s => wU g s ^ 2)

/-- Spec-side Estrangement numerator: total weight of the Zgraph edges whose
endpoints receive different labels. -/
def claimNumer (Z : Graph) (ld : List (Nat × Nat)) : ℚ :=
  ((Z.edges.filter (fun e => decide (alookup e.1.1 ld ≠ alookup e.1.2 ld))).map
    (fun e => e.2.getD 0)).sum

/-- Spec-side Estrangement denominator: the sum of all edge weights of `G`. -/
def claimDenom (G : Graph) : ℚ := (G.edges.map (fun e => e.2.getD 0)).sum

/-- Population variance written as mean of squares minus squared mean. -/
def specPopVar (l : List ℚ) : ℚ :=
  (l.map (fun x => x ^ 2)).sum / l.length - (l.sum / l.length) ^ 2

/-- `m` is the strictly-unique maximum-overlap t−1-label of t-label `lt`. -/
def StrictBestPrev (ld pld : List (Nat × Nat)) (lt m : Nat) : Prop :=
  m ∈ tLabels pld ∧ ∀ p ∈ tLabels pld, p ≠ m → jacOf ld pld p lt < jacOf ld pld m lt

/-- `l2` is the strictly-unique maximum-overlap t-label of t−1-label `m`. -/
def StrictBestCur (ld pld : List (Nat × Nat)) (m l2 : Nat) : Prop :=
  l2 ∈ tLabels ld ∧ ∀ l ∈ tLabels ld, l ≠ l2 → jacOf ld pld m l < jacOf ld pld m l2

/-- The out-neighbor a label gets in the max-overlap digraph. -/
def succL (ld pld : List (Nat × Nat)) (v : Nat) : Option Nat :=
  maxwtNbr (overlapEvents ld pld) v

/-- A reciprocal ("bidirected") pair in the max-overlap digraph. -/
def ConfirmedPair (ld pld : List (Nat × Nat)) (lt m : Nat) : Prop :=
  succL ld pld lt = some m ∧ succL ld pld m = some lt

instance (ld pld : List (Nat × Nat)) (lt m : Nat) :
    Decidable (StrictBestPrev ld pld lt m) :=
  inferInstanceAs (Decidable (_ ∧ _))

instance (ld pld : List (Nat × Nat)) (m l2 : Nat) :
    Decidable (StrictBestCur ld pld m l2) :=
  inferInstanceAs (Decidable (_ ∧ _))

instance (ld pld : List (Nat × Nat)) (lt m : Nat) :
    Decidable (ConfirmedPair ld pld lt m) :=
  inferInstanceAs (Decidable (_ ∧ _))

instance (g0 g1 : Graph) : Decidable (OrientConsistent g0 g1) :=
  inferInstanceAs (Decidable (∀ t0 ∈ g0.tuples, ∀ t1 ∈ g1.tuples, _ → _))

instance (g : Graph) : Decidable g.WF :=
  inferInstanceAs (Decidable (List.Nodup _))

/-! ## Combinator lemmas -/

theorem omap_eq_map {α β : Type} (f : α → Option β) (g : α → β) :
    ∀ (l : List α), (∀ a ∈ l, f a = some (g a)) → omap f l = some (l.map g) := by
  intro l
  induction l with
  | nil => intro _; rfl
  | cons a l ih =>
    intro h
    simp only [omap, h a (List.mem_cons_self a l),
      ih (fun x hx => h x (List.mem_cons_of_mem a hx)), List.map_cons]

theorem omap_eq_none {α β : Type} (f : α → Option β) {a : α} :
    ∀ {l : List α}, a ∈ l → f a = none → omap f l = none := by
  intro l
  induction l with
  | nil => intro h; exact absurd h (List.not_mem_nil a)
  | cons b l ih =>
    intro hm hfa
    rcases List.mem_cons.mp hm with h | h
    · subst h; simp only [omap, hfa]
    · simp only [omap, ih h hfa]
      cases f b <;> rfl

theorem omap_isSome {α β : Type} (f : α → Option β) :
    ∀ (l : List α), (∀ a ∈ l, (f a).isSome) → ∃ r, omap f l = some r := by
  intro l
  induction l with
  | nil => intro _; exact ⟨[], rfl⟩
  | cons a l ih =>
    intro h
    rcases ih (fun x hx => h x (List.mem_cons_of_mem a hx)) with ⟨r, hr⟩
    rcases Option.isSome_iff_exists.mp (h a (List.mem_cons_self a l)) with ⟨b, hb⟩
    exact ⟨b :: r, by simp only [omap, hb, hr]⟩

theorem mem_dedupF {a : Nat} : ∀ {l : List Nat}, a ∈ dedupF l ↔ a ∈ l := by
  intro l
  induction l with
  | nil => rfl
  | cons b l ih =>
    rw [dedupF]
    simp only [List.mem_cons, List.mem_filter, decide_eq_true_eq, ih]
    constructor
    · rintro (h | ⟨h, _⟩)
      · exact Or.inl h
      · exact Or.inr h
    · rintro (h | h)
      · exact Or.inl h
      · by_cases hab : a = b
        · exact Or.inl hab
        · exact Or.inr ⟨h, hab⟩

theorem nodup_dedupF : ∀ (l : List Nat), (dedupF l).Nodup := by
  intro l
  induction l with
  | nil => exact List.nodup_nil
  | cons b l ih =>
    rw [dedupF]
    refine List.Nodup.cons ?_ (List.Nodup.filter _ ih)
    intro hb
    rcases List.mem_filter.mp hb with ⟨_, hbb⟩
    simp at hbb

theorem dedupF_eq_self : ∀ {l : List Nat}, l.Nodup → dedupF l = l := by
  intro l
  induction l with
  | nil => intro _; rfl
  | cons b l ih =>
    intro h
    have hbl : b ∉ l := (List.nodup_cons.mp h).1
    rw [dedupF, ih ((List.nodup_cons.mp h).2)]
    have hf : l.filter (fun x => decide (x ≠ b)) = l := by
      refine List.filter_eq_self.mpr ?_
      intro x hx
      simp only [decide_eq_true_eq]
      intro hxb
      exact hbl (hxb ▸ hx)
    rw [hf]

theorem dedupF_ne_nil {l : List Nat} (h : l ≠ []) : dedupF l ≠ [] := by
  cases l with
  | nil => exact absurd rfl h
  | cons a l => rw [dedupF]; exact List.cons_ne_nil _ _

theorem alookup_append_right {α : Type} (k : Nat) (l1 l2 : List (Nat × α))
    (h : alookup k l1 = none) : alookup k (l1 ++ l2) = alookup k l2 := by
  induction l1 with
  | nil => rfl
  | cons p l1 ih =>
    rw [alookup] at h
    by_cases hp : p.1 = k
    · simp [hp] at h
    · rw [List.cons_append, alookup, if_neg hp]
      exact ih (by rwa [if_neg hp] at h)

theorem alookup_append_left {α : Type} (k : Nat) (l1 l2 : List (Nat × α)) {v : α}
    (h : alookup k l1 = some v) : alookup k (l1 ++ l2) = some v := by
  induction l1 with
  | nil => exact absurd h (by simp [alookup])
  | cons p l1 ih =>
    rw [alookup] at h
    by_cases hp : p.1 = k
    · rw [if_pos hp] at h
      rw [List.cons_append, alookup, if_pos hp]
      exact h
    · rw [if_neg hp] at h
      rw [List.cons_append, alookup, if_neg hp]
      exact ih h

theorem alookup_mem {α : Type} {k : Nat} {v : α} :
    ∀ {l : List (Nat × α)}, alookup k l = some v → (k, v) ∈ l := by
  intro l
  induction l with
  | nil => intro h; exact absurd h (by simp [alookup])
  | cons p l ih =>
    intro h
    rw [alookup] at h
    by_cases hp : p.1 = k
    · rw [if_pos hp] at h
      have : p = (k, v) := by
        cases p; cases hp; cases Option.some.inj h; rfl
      exact this ▸ List.mem_cons_self p l
    · rw [if_neg hp] at h
      exact List.mem_cons_of_mem p (ih h)

theorem mem_keys_alookup {α : Type} {k : Nat} :
    ∀ {l : List (Nat × α)}, k ∈ l.map Prod.fst → ∃ v, alookup k l = some v := by
  intro l
  induction l with
  | nil => intro h; exact absurd h (by simp)
  | cons p l ih =>
    intro h
    by_cases hp : p.1 = k
    · exact ⟨p.2, by rw [alookup, if_pos hp]⟩
    · have : k ∈ l.map Prod.fst := by
        rcases List.mem_map.mp h with ⟨q, hq, hqk⟩
        rcases List.mem_cons.mp hq with h1 | h1
        · exact absurd (h1 ▸ hqk) hp
        · exact List.mem_map.mpr ⟨q, h1, hqk⟩
      rcases ih this with ⟨v, hv⟩
      exact ⟨v, by rw [alookup, if_neg hp]; exact hv⟩

theorem alookup_none {α : Type} {k : Nat} :
    ∀ {l : List (Nat × α)}, k ∉ l.map Prod.fst → alookup k l = none := by
  intro l
  induction l with
  | nil => intro _; rfl
  | cons p l ih =>
    intro h
    rw [alookup, if_neg (fun hp => h (by simp [hp]))]
    exact ih (fun hk => h (by simp [hk]))

theorem alookup_of_mem_nodup {α : Type} :
    ∀ {l : List (Nat × α)}, (l.map Prod.fst).Nodup → ∀ {k : Nat} {v : α},
      (k, v) ∈ l → alookup k l = some v := by
  intro l
  induction l with
  | nil => intro _ k v h; exact absurd h (List.not_mem_nil _)
  | cons p l ih =>
    intro hnd k v hm
    rw [List.map_cons, List.nodup_cons] at hnd
    rcases List.mem_cons.mp hm with h1 | h1
    · rw [alookup, ← h1]
      simp
    · have hp : p.1 ≠ k := by
        intro hp
        exact hnd.1 (hp ▸ List.mem_map.mpr ⟨(k, v), h1, rfl⟩)
      rw [alookup, if_neg hp]
      exact ih hnd.2 h1

theorem alookup_map_self {α : Type} (f : Nat → α) :
    ∀ (L : List Nat) {k : Nat}, k ∈ L →
      alookup k (L.map (fun v => (v, f v))) = some (f k) := by
  intro L
  induction L with
  | nil => intro k h; exact absurd h (List.not_mem_nil _)
  | cons a L ih =>
    intro k h
    rcases List.mem_cons.mp h with h1 | h1
    · subst h1; rw [List.map_cons, alookup, if_pos rfl]
    · by_cases hak : a = k
      · subst hak; rw [List.map_cons, alookup, if_pos rfl]
      · rw [List.map_cons, alookup, if_neg hak]
        exact ih h1

theorem foldMax_mem : ∀ (l : List (Nat × ℚ)) (b : Nat × ℚ), foldMax b l ∈ b :: l := by
  intro l
  induction l with
  | nil => intro b; rw [foldMax]; exact List.mem_cons_self b []
  | cons q qs ih =>
    intro b
    rw [foldMax]
    rcases List.mem_cons.mp (ih (if b.2 < q.2 then q else b)) with h1 | h1
    · rw [h1]
      by_cases hb : b.2 < q.2
      · rw [if_pos hb]
        exact List.mem_cons_of_mem b (List.mem_cons_self q qs)
      · rw [if_neg hb]
        exact List.mem_cons_self b _
    · exact List.mem_cons_of_mem b (List.mem_cons_of_mem q h1)

theorem foldMax_eq_strict :
    ∀ (l : List (Nat × ℚ)) (b m : Nat × ℚ), (b = m ∨ m ∈ l) →
      (b ≠ m → b.2 < m.2) → (∀ q ∈ l, q ≠ m → q.2 < m.2) → foldMax b l = m := by
  intro l
  induction l with
  | nil =>
    intro b m hmem hb _
    rcases hmem with h | h
    · exact h ▸ rfl
    · exact absurd h (List.not_mem_nil m)
  | cons q qs ih =>
    intro b m hmem hb hq
    rw [foldMax]
    have hq' : ∀ r ∈ qs, r ≠ m → r.2 < m.2 :=
      fun r hr => hq r (List.mem_cons_of_mem q hr)
    by_cases hnew : (if b.2 < q.2 then q else b) = m
    · exact ih _ m (Or.inl hnew) (fun h => absurd hnew h) hq'
    · refine ih _ m (Or.inr ?_) (fun _ => ?_) hq'
      · rcases hmem with h | h
        · exfalso
          by_cases hb2 : b.2 < q.2
          · rw [if_pos hb2] at hnew
            exact absurd (hq q (List.mem_cons_self q qs) hnew)
              (lt_asymm (h ▸ hb2))
          · rw [if_neg hb2] at hnew
            exact hnew h
        · rcases List.mem_cons.mp h with h1 | h1
          · exfalso
            by_cases hb2 : b.2 < q.2
            · rw [if_pos hb2] at hnew
              exact hnew h1.symm
            · rw [if_neg hb2] at hnew
              exact hb2 (h1 ▸ hb hnew)
          · exact h1
      · by_cases hb2 : b.2 < q.2
        · rw [if_pos hb2] at hnew ⊢
          exact hq q (List.mem_cons_self q qs) hnew
        · rw [if_neg hb2] at hnew ⊢
          exact hb hnew

theorem firstMax_map_strict (w : Nat → ℚ) (m : Nat) :
    ∀ (L : List Nat), m ∈ L → (∀ u ∈ L, u ≠ m → w u < w m) →
      firstMax (L.map (fun u => (u, w u))) = some (m, w m) := by
  intro L
  cases L with
  | nil => intro h _; exact absurd h (List.not_mem_nil m)
  | cons a L =>
    intro hm hs
    rw [List.map_cons, firstMax]
    congr 1
    refine foldMax_eq_strict _ _ _ ?_ ?_ ?_
    · rcases List.mem_cons.mp hm with h | h
      · left; rw [h]
      · right; exact List.mem_map.mpr ⟨m, h, rfl⟩
    · intro hne
      have ham : a ≠ m := fun h => hne (by rw [h])
      exact hs a (List.mem_cons_self a L) ham
    · intro q hq hqm
      rcases List.mem_map.mp hq with ⟨u, hu, huq⟩
      have hum : u ≠ m := fun h => hqm (by rw [← huq, h])
      rw [← huq]
      exact hs u (List.mem_cons_of_mem a hu) hum

theorem maxwtNbr_mem {E : List (Nat × Nat × ℚ)} {v u : Nat}
    (h : maxwtNbr E v = some u) : u ∈ nbrs E v := by
  rw [maxwtNbr] at h
  cases hnb : nbrs E v with
  | nil => rw [hnb] at h; exact absurd h (by simp [firstMax])
  | cons a L =>
    rw [hnb, List.map_cons, firstMax] at h
    have hmem := foldMax_mem (L.map (fun u => (u, wtD E v u))) (a, wtD E v a)
    rw [Option.map_some'] at h
    have h1 := Option.some.inj h
    rcases List.mem_cons.mp hmem with h2 | h2
    · rw [← h1, h2]
      exact List.mem_cons_self a L
    · rcases List.mem_map.mp h2 with ⟨x, hx, hxe⟩
      rw [← h1, ← hxe]
      exact List.mem_cons_of_mem a hx

theorem maxwtNbr_isSome {E : List (Nat × Nat × ℚ)} {v : Nat}
    (h : nbrs E v ≠ []) : ∃ u, maxwtNbr E v = some u := by
  cases hnb : nbrs E v with
  | nil => exact absurd hnb h
  | cons a L =>
    refine ⟨(foldMax (a, wtD E v a) (L.map (fun u => (u, wtD E v u)))).1, ?_⟩
    rw [maxwtNbr, hnb, List.map_cons, firstMax]
    rfl

theorem mem_mkEvents {T P : List Nat} {j : Nat → Nat → ℚ} {e : Nat × Nat × ℚ} :
    e ∈ mkEvents T P j ↔ e.2.1 ∈ T ∧ e.1 ∈ P ∧ e.2.2 = j e.1 e.2.1 := by
  rw [mkEvents, List.mem_flatMap]
  constructor
  · rintro ⟨lt, hlt, he⟩
    rcases List.mem_map.mp he with ⟨lp, hlp, hpe⟩
    rw [← hpe]
    exact ⟨hlt, hlp, rfl⟩
  · rintro ⟨h1, h2, h3⟩
    refine ⟨e.2.1, h1, List.mem_map.mpr ⟨e.1, h2, ?_⟩⟩
    rw [← h3]

theorem mem_vertices {E : List (Nat × Nat × ℚ)} {x : Nat} :
    x ∈ vertices E ↔ ∃ e ∈ E, x = e.1 ∨ x = e.2.1 := by
  rw [vertices, mem_dedupF, List.mem_flatMap]
  constructor
  · rintro ⟨e, he, hx⟩
    refine ⟨e, he, ?_⟩
    rcases List.mem_cons.mp hx with h | h
    · exact Or.inl h
    · rcases List.mem_cons.mp h with h1 | h1
      · exact Or.inr h1
      · exact absurd h1 (List.not_mem_nil x)
  · rintro ⟨e, he, hx⟩
    refine ⟨e, he, ?_⟩
    rcases hx with h | h
    · exact h ▸ List.mem_cons_self _ _
    · exact h ▸ List.mem_cons_of_mem _ (List.mem_cons_self _ _)

theorem mem_nbrs {E : List (Nat × Nat × ℚ)} {v u : Nat} :
    u ∈ nbrs E v ↔ ∃ e ∈ E,
      (e.1 = v ∧ u = e.2.1) ∨ (e.1 ≠ v ∧ e.2.1 = v ∧ u = e.1) := by
  rw [nbrs, mem_dedupF, List.mem_filterMap]
  constructor
  · rintro ⟨e, he, hx⟩
    refine ⟨e, he, ?_⟩
    by_cases h1 : e.1 = v
    · rw [if_pos h1] at hx
      exact Or.inl ⟨h1, (Option.some.inj hx).symm⟩
    · rw [if_neg h1] at hx
      by_cases h2 : e.2.1 = v
      · rw [if_pos h2] at hx
        exact Or.inr ⟨h1, h2, (Option.some.inj hx).symm⟩
      · rw [if_neg h2] at hx
        exact absurd hx (by simp)
  · rintro ⟨e, he, hx⟩
    refine ⟨e, he, ?_⟩
    rcases hx with ⟨h1, h2⟩ | ⟨h1, h2, h3⟩
    · rw [if_pos h1, h2]
    · rw [if_neg h1, if_pos h2, h3]

theorem nbrs_subset_vertices {E : List (Nat × Nat × ℚ)} {v u : Nat}
    (h : u ∈ nbrs E v) : u ∈ vertices E := by
  rcases mem_nbrs.mp h with ⟨e, he, hx⟩
  refine mem_vertices.mpr ⟨e, he, ?_⟩
  rcases hx with ⟨_, h2⟩ | ⟨_, _, h3⟩
  · exact Or.inr h2
  · exact Or.inl h3

theorem nbrs_ne_nil {E : List (Nat × Nat × ℚ)} {v : Nat}
    (h : v ∈ vertices E) : nbrs E v ≠ [] := by
  rcases mem_vertices.mp h with ⟨e, he, hx⟩
  rw [nbrs]
  refine dedupF_ne_nil ?_
  intro hnil
  rw [List.filterMap_eq_nil_iff] at hnil
  have := hnil e he
  rcases hx with h1 | h1
  · rw [if_pos h1.symm] at this
    exact absurd this (by simp)
  · by_cases h2 : e.1 = v
    · rw [if_pos h2] at this
      exact absurd this (by simp)
    · rw [if_neg h2, if_pos h1.symm] at this
      exact absurd this (by simp)

theorem mkEvents_nil (P : List Nat) (j : Nat → Nat → ℚ) : mkEvents [] P j = [] := rfl

theorem mkEvents_cons (a : Nat) (T P : List Nat) (j : Nat → Nat → ℚ) :
    mkEvents (a :: T) P j =
      P.map (fun lp => (lp, a, j lp a)) ++ mkEvents T P j := by
  rw [mkEvents, List.flatMap_cons, mkEvents]

theorem filterMap_singleton {α : Type} {f : Nat → Option α} {m : Nat} {a : α} :
    ∀ {P : List Nat}, P.Nodup → m ∈ P →
      (∀ x ∈ P, f x = if x = m then some a else none) → P.filterMap f = [a] := by
  intro P
  induction P with
  | nil => intro _ h _; exact absurd h (List.not_mem_nil m)
  | cons p P ih =>
    intro hnd hm hf
    rw [List.filterMap_cons]
    rcases List.mem_cons.mp hm with h1 | h1
    · rw [hf p (List.mem_cons_self p P), if_pos h1.symm]
      have : P.filterMap f = [] := by
        refine List.filterMap_eq_nil_iff.mpr ?_
        intro x hx
        rw [hf x (List.mem_cons_of_mem p hx), if_neg ?_]
        intro hxm
        exact (List.nodup_cons.mp hnd).1 (h1 ▸ hxm ▸ hx)
      rw [this]
    · have hpm : p ≠ m := by
        intro hpm
        exact (List.nodup_cons.mp hnd).1 (hpm ▸ h1)
      rw [hf p (List.mem_cons_self p P), if_neg hpm]
      exact ih (List.nodup_cons.mp hnd).2 h1
        (fun x hx => hf x (List.mem_cons_of_mem p hx))

theorem filterMap_events_t (j : Nat → Nat → ℚ) (lt : Nat) :
    ∀ (T : List Nat) (P : List Nat), (∀ x ∈ P, x ≠ lt) → T.Nodup → lt ∈ T →
      (mkEvents T P j).filterMap (fun e =>
        if e.1 = lt then some e.2.1
        else if e.2.1 = lt then some e.1 else none) = P := by
  intro T
  induction T with
  | nil => intro P _ _ h; exact absurd h (List.not_mem_nil lt)
  | cons a T ih =>
    intro P hP hnd hlt
    rw [mkEvents_cons, List.filterMap_append, List.filterMap_map]
    by_cases hal : a = lt
    · subst hal
      have hblock : P.filterMap
          ((fun e : Nat × Nat × ℚ =>
            if e.1 = a then some e.2.1
            else if e.2.1 = a then some e.1 else none) ∘
           (fun lp => (lp, a, j lp a))) = P := by
        have : ∀ x ∈ P, ((fun e : Nat × Nat × ℚ =>
            if e.1 = a then some e.2.1
            else if e.2.1 = a then some e.1 else none) ∘
           (fun lp => (lp, a, j lp a))) x = some x := by
          intro x hx
          simp only [Function.comp]
          rw [if_neg (hP x hx)]
          simp
        rw [List.filterMap_congr this, List.filterMap_some]
      have hrest : (mkEvents T P j).filterMap (fun e =>
          if e.1 = a then some e.2.1
          else if e.2.1 = a then some e.1 else none) = [] := by
        refine List.filterMap_eq_nil_iff.mpr ?_
        intro e he
        rcases mem_mkEvents.mp he with ⟨h1, h2, _⟩
        rw [if_neg (hP e.1 h2), if_neg ?_]
        intro h3
        exact (List.nodup_cons.mp hnd).1 (h3 ▸ h1)
      rw [hblock, hrest, List.append_nil]
    · have hblock : P.filterMap
          ((fun e : Nat × Nat × ℚ =>
            if e.1 = lt then some e.2.1
            else if e.2.1 = lt then some e.1 else none) ∘
           (fun lp => (lp, a, j lp a))) = [] := by
        refine List.filterMap_eq_nil_iff.mpr ?_
        intro x hx
        simp only [Function.comp]
        rw [if_neg (hP x hx), if_neg hal]
      have hlt' : lt ∈ T := by
        rcases List.mem_cons.mp hlt with h1 | h1
        · exact absurd h1.symm hal
        · exact h1
      rw [hblock, List.nil_append]
      exact ih P hP (List.nodup_cons.mp hnd).2 hlt'

theorem nbrs_events_t (j : Nat → Nat → ℚ) (T P : List Nat) (lt : Nat)
    (hP : ∀ x ∈ P, x ≠ lt) (hT : T.Nodup) (hPnd : P.Nodup) (hlt : lt ∈ T) :
    nbrs (mkEvents T P j) lt = P := by
  rw [nbrs, filterMap_events_t j lt T P hP hT hlt, dedupF_eq_self hPnd]

theorem filterMap_events_p (j : Nat → Nat → ℚ) (m : Nat) :
    ∀ (T : List Nat) (P : List Nat), (∀ x ∈ T, x ≠ m) → m ∈ P → P.Nodup →
      (mkEvents T P j).filterMap (fun e =>
        if e.1 = m then some e.2.1
        else if e.2.1 = m then some e.1 else none) = T := by
  intro T
  induction T with
  | nil => intro P _ _ _; rfl
  | cons a T ih =>
    intro P hT hm hPnd
    rw [mkEvents_cons, List.filterMap_append, List.filterMap_map]
    have ham : a ≠ m := hT a (List.mem_cons_self a T)
    have hblock : P.filterMap
        ((fun e : Nat × Nat × ℚ =>
          if e.1 = m then some e.2.1
          else if e.2.1 = m then some e.1 else none) ∘
         (fun lp => (lp, a, j lp a))) = [a] := by
      refine filterMap_singleton hPnd hm ?_
      intro x hx
      simp only [Function.comp]
      by_cases hxm : x = m
      · rw [if_pos hxm, if_pos hxm]
      · rw [if_neg hxm, if_neg ham, if_neg hxm]
    rw [hblock]
    rw [ih P (fun x hx => hT x (List.mem_cons_of_mem a hx)) hm hPnd]
    rfl

theorem nbrs_events_p (j : Nat → Nat → ℚ) (T P : List Nat) (m : Nat)
    (hT : ∀ x ∈ T, x ≠ m) (hTnd : T.Nodup) (hPnd : P.Nodup) (hm : m ∈ P) :
    nbrs (mkEvents T P j) m = T := by
  rw [nbrs, filterMap_events_p j m T P hT hm hPnd, dedupF_eq_self hTnd]

theorem filter_singleton_of {p : Nat → Bool} {m : Nat} :
    ∀ {P : List Nat}, P.Nodup → m ∈ P → (∀ x ∈ P, p x = true ↔ x = m) →
      P.filter p = [m] := by
  intro P
  induction P with
  | nil => intro _ h _; exact absurd h (List.not_mem_nil m)
  | cons q P ih =>
    intro hnd hm hp
    rcases List.mem_cons.mp hm with h1 | h1
    · rw [List.filter_cons_of_pos ((hp q (List.mem_cons_self q P)).mpr h1.symm)]
      have : P.filter p = [] := by
        refine List.filter_eq_nil_iff.mpr ?_
        intro x hx hpx
        have hxm := (hp x (List.mem_cons_of_mem q hx)).mp hpx
        exact (List.nodup_cons.mp hnd).1 (h1 ▸ hxm ▸ hx)
      rw [this, h1]
    · have hqm : q ≠ m := by
        intro h
        exact (List.nodup_cons.mp hnd).1 (h ▸ h1)
      rw [List.filter_cons_of_neg ?_]
      · exact ih (List.nodup_cons.mp hnd).2 h1
          (fun x hx => hp x (List.mem_cons_of_mem q hx))
      · intro h
        exact hqm ((hp q (List.mem_cons_self q P)).mp h)

theorem eMatch_comm (u v : Nat) (e : Nat × Nat × ℚ) : eMatch u v e = eMatch v u e := by
  rw [eMatch, eMatch, Bool.or_comm]

theorem filter_events_single (j : Nat → Nat → ℚ) (lt lp : Nat) :
    ∀ (T : List Nat) (P : List Nat), (∀ x ∈ P, ∀ y ∈ T, x ≠ y) →
      T.Nodup → P.Nodup → lt ∈ T → lp ∈ P →
      (mkEvents T P j).filter (eMatch lt lp) = [(lp, lt, j lp lt)] := by
  intro T
  induction T with
  | nil => intro P _ _ _ h _; exact absurd h (List.not_mem_nil lt)
  | cons a T ih =>
    intro P hd hT hP hlt hlp
    rw [mkEvents_cons, List.filter_append, List.filter_map]
    by_cases hal : a = lt
    · subst hal
      have hblock : P.filter (eMatch a lp ∘ fun x => (x, a, j x a)) = [lp] := by
        refine filter_singleton_of hP hlp ?_
        intro x hx
        simp only [Function.comp, eMatch]
        constructor
        · intro h
          rcases Bool.or_eq_true_iff.mp h with h1 | h1
          · exact absurd (beq_iff_eq.mp (Bool.and_eq_true_iff.mp h1).1)
              (hd x hx a hlt)
          · exact beq_iff_eq.mp (Bool.and_eq_true_iff.mp h1).1
        · intro h
          subst h
          simp
      have hrest : (mkEvents T P j).filter (eMatch a lp) = [] := by
        refine List.filter_eq_nil_iff.mpr ?_
        intro e he hmatch
        rcases mem_mkEvents.mp he with ⟨h1, h2, _⟩
        rcases Bool.or_eq_true_iff.mp hmatch with hc | hc
        · exact hd e.1 h2 a hlt (beq_iff_eq.mp (Bool.and_eq_true_iff.mp hc).1)
        · have : e.2.1 = a := beq_iff_eq.mp (Bool.and_eq_true_iff.mp hc).2
          exact (List.nodup_cons.mp hT).1 (this ▸ h1)
      rw [hblock, hrest, List.map_cons, List.map_nil, List.append_nil]
    · have hblock : P.filter (eMatch lt lp ∘ fun x => (x, a, j x a)) = [] := by
        refine List.filter_eq_nil_iff.mpr ?_
        intro x hx hmatch
        simp only [Function.comp, eMatch] at hmatch
        rcases Bool.or_eq_true_iff.mp hmatch with hc | hc
        · exact hd x hx lt hlt (beq_iff_eq.mp (Bool.and_eq_true_iff.mp hc).1)
        · exact hal (beq_iff_eq.mp (Bool.and_eq_true_iff.mp hc).2)
      have hlt' : lt ∈ T := by
        rcases List.mem_cons.mp hlt with h1 | h1
        · exact absurd h1.symm hal
        · exact h1
      rw [hblock, List.map_nil, List.nil_append]
      exact ih P (fun x hx y hy => hd x hx y (List.mem_cons_of_mem a hy))
        (List.nodup_cons.mp hT).2 hP hlt' hlp

theorem wtD_events (j : Nat → Nat → ℚ) (T P : List Nat) (lt lp : Nat)
    (hd : ∀ x ∈ P, ∀ y ∈ T, x ≠ y) (hT : T.Nodup) (hP : P.Nodup)
    (hlt : lt ∈ T) (hlp : lp ∈ P) :
    wtD (mkEvents T P j) lt lp = j lp lt ∧ wtD (mkEvents T P j) lp lt = j lp lt := by
  have hf := filter_events_single j lt lp T P hd hT hP hlt hlp
  constructor
  · rw [wtD, hf]
    rfl
  · have h2 : (mkEvents T P j).filter (eMatch lp lt) = [(lp, lt, j lp lt)] := by
      rw [List.filter_congr (fun e _ => (eMatch_comm lp lt e))]
      exact hf
    rw [wtD, h2]
    rfl

/-- The target of a label's out-edge in the max-overlap digraph (meaningful
whenever the label is a vertex of the overlap graph). -/
def mOf (E : List (Nat × Nat × ℚ)) (v : Nat) : Nat := (maxwtNbr E v).getD 0

/-- The label given to the group of t-label `lt`: its digraph successor `m`
when the edge is bidirected, otherwise `lt` itself. -/
def bestL (ld pld : List (Nat × Nat)) (lt : Nat) : Nat :=
  if mOf (overlapEvents ld pld) (mOf (overlapEvents ld pld) lt) = lt
  then mOf (overlapEvents ld pld) lt else lt

theorem maxwtNbr_eq_mOf {E : List (Nat × Nat × ℚ)} {v : Nat}
    (h : v ∈ vertices E) : maxwtNbr E v = some (mOf E v) := by
  rcases maxwtNbr_isSome (nbrs_ne_nil h) with ⟨u, hu⟩
  rw [hu, mOf, hu]
  rfl

theorem tLabels_ne_nil {ld : List (Nat × Nat)} (h : ld ≠ []) : tLabels ld ≠ [] := by
  rw [tLabels]
  refine dedupF_ne_nil ?_
  intro hnil
  exact h (List.map_eq_nil_iff.mp hnil)

theorem mem_tLabels {ld : List (Nat × Nat)} {l : Nat} :
    l ∈ tLabels ld ↔ ∃ n, (n, l) ∈ ld := by
  rw [tLabels, mem_dedupF, List.mem_map]
  constructor
  · rintro ⟨p, hp, hpl⟩
    exact ⟨p.1, by rwa [show (p.1, l) = p from by rw [← hpl]]⟩
  · rintro ⟨n, hn⟩
    exact ⟨(n, l), hn, rfl⟩

theorem tLabel_mem_vertices {ld pld : List (Nat × Nat)} {lt : Nat}
    (hpld : pld ≠ []) (hlt : lt ∈ tLabels ld) :
    lt ∈ vertices (overlapEvents ld pld) := by
  rcases List.exists_mem_of_ne_nil (tLabels pld) (tLabels_ne_nil hpld) with ⟨p, hp⟩
  refine mem_vertices.mpr ⟨(p, lt, jacOf ld pld p lt), ?_, Or.inr rfl⟩
  exact mem_mkEvents.mpr ⟨hlt, hp, rfl⟩

theorem mOf_mem_vertices {E : List (Nat × Nat × ℚ)} {v : Nat}
    (h : v ∈ vertices E) : mOf E v ∈ vertices E :=
  nbrs_subset_vertices (maxwtNbr_mem (maxwtNbr_eq_mOf h))

/-- The built digraph, explicitly. -/
theorem buildD_eq (E : List (Nat × Nat × ℚ)) :
    buildD E = some ((vertices E).map (fun v => (v, mOf E v))) := by
  rw [buildD]
  refine omap_eq_map _ _ _ ?_
  intro v hv
  rw [maxwtNbr_eq_mOf hv]
  rfl

theorem alookup_buildD {E : List (Nat × Nat × ℚ)} {v : Nat}
    (h : v ∈ vertices E) :
    alookup v ((vertices E).map (fun v => (v, mOf E v))) = some (mOf E v) :=
  alookup_map_self (mOf E) (vertices E) h

/-- `match_labels` on a non-empty `prev_label_dict`, written as the flat list
of per-group blocks. -/
theorem match_labels_eq (ld pld : List (Nat × Nat)) (hpld : pld ≠ []) :
    match_labels ld pld = some
      (((tLabels ld).map (fun lt =>
        (groupOf ld lt).map (fun n => (n, bestL ld pld lt)))).flatten) := by
  have hmap : omap (fun lt =>
      match alookup lt ((vertices (overlapEvents ld pld)).map
          (fun v => (v, mOf (overlapEvents ld pld) v))) with
      | none => none
      | some m =>
        match alookup m ((vertices (overlapEvents ld pld)).map
            (fun v => (v, mOf (overlapEvents ld pld) v))) with
        | none => none
        | some s =>
          some ((groupOf ld lt).map (fun n => (n, if s = lt then m else lt))))
      (tLabels ld) = some ((tLabels ld).map (fun lt =>
        (groupOf ld lt).map (fun n => (n, bestL ld pld lt)))) := by
    refine omap_eq_map _ _ _ ?_
    intro lt hlt
    have hv : lt ∈ vertices (overlapEvents ld pld) := tLabel_mem_vertices hpld hlt
    simp only [alookup_buildD hv, alookup_buildD (mOf_mem_vertices hv), bestL]
  rw [match_labels, if_neg hpld, buildD_eq]
  show (omap (fun lt =>
      match alookup lt ((vertices (overlapEvents ld pld)).map
          (fun v => (v, mOf (overlapEvents ld pld) v))) with
      | none => none
      | some m =>
        match alookup m ((vertices (overlapEvents ld pld)).map
            (fun v => (v, mOf (overlapEvents ld pld) v))) with
        | none => none
        | some s =>
          some ((groupOf ld lt).map (fun n => (n, if s = lt then m else lt))))
      (tLabels ld)).map List.flatten = _
  rw [hmap]
  rfl

/-- `match_labels` never fails. -/
theorem match_labels_total (ld pld : List (Nat × Nat)) :
    ∃ out, match_labels ld pld = some out := by
  by_cases h : pld = []
  · subst h
    exact ⟨ld, by rw [match_labels, if_pos rfl]⟩
  · exact ⟨_, match_labels_eq ld pld h⟩

theorem mem_groupOf {ld : List (Nat × Nat)} {n l : Nat} :
    n ∈ groupOf ld l ↔ (n, l) ∈ ld := by
  rw [groupOf, List.mem_map]
  constructor
  · rintro ⟨p, hp, hpn⟩
    rcases List.mem_filter.mp hp with ⟨hpm, hpl⟩
    have : p = (n, l) := by
      cases p
      simp only [decide_eq_true_eq] at hpl
      simp only at hpn
      rw [hpn, hpl]
    exact this ▸ hpm
  · intro h
    exact ⟨(n, l), List.mem_filter.mpr ⟨h, by simp⟩, rfl⟩

theorem groupOf_unique {ld : List (Nat × Nat)} (hk : (ld.map Prod.fst).Nodup)
    {n lt : Nat} (hn : alookup n ld = some lt) (l' : Nat) :
    n ∈ groupOf ld l' ↔ l' = lt := by
  constructor
  · intro h
    have := alookup_of_mem_nodup hk (mem_groupOf.mp h)
    rw [hn] at this
    exact (Option.some.inj this).symm
  · intro h
    exact h ▸ mem_groupOf.mpr (alookup_mem hn)

theorem alookup_flatten_blocks (ld : List (Nat × Nat)) (b : Nat → Nat)
    {n lt : Nat} (hgrp : ∀ l', n ∈ groupOf ld l' ↔ l' = lt) :
    ∀ (L : List Nat), lt ∈ L →
      alookup n ((L.map (fun l' =>
        (groupOf ld l').map (fun x => (x, b l')))).flatten) = some (b lt) := by
  intro L
  induction L with
  | nil => intro h; exact absurd h (List.not_mem_nil lt)
  | cons a L ih =>
    intro hm
    rw [List.map_cons, List.flatten_cons]
    by_cases hal : a = lt
    · subst hal
      refine alookup_append_left n _ _ ?_
      exact alookup_map_self (fun _ => b a) (groupOf ld a) ((hgrp a).mpr rfl)
    · have hnone : alookup n ((groupOf ld a).map (fun x => (x, b a))) = none := by
        refine alookup_none ?_
        intro hmem
        rw [List.map_map] at hmem
        have : n ∈ groupOf ld a := by
          rcases List.mem_map.mp hmem with ⟨x, hx, hxn⟩
          simp only [Function.comp] at hxn
          exact hxn ▸ hx
        exact hal ((hgrp a).mp this)
      rw [alookup_append_right n _ _ hnone]
      refine ih ?_
      rcases List.mem_cons.mp hm with h1 | h1
      · exact absurd h1.symm hal
      · exact h1

/-- What `match_labels` assigns to a node carrying label `lt`. -/
theorem match_labels_lookup (ld pld : List (Nat × Nat)) (hpld : pld ≠ [])
    (hk : (ld.map Prod.fst).Nodup) {n lt : Nat} (hn : alookup n ld = some lt) :
    (match_labels ld pld).bind (alookup n) = some (bestL ld pld lt) := by
  rw [match_labels_eq ld pld hpld, Option.some_bind]
  have hlt : lt ∈ tLabels ld :=
    mem_tLabels.mpr ⟨n, alookup_mem hn⟩
  exact alookup_flatten_blocks ld (bestL ld pld) (groupOf_unique hk hn) (tLabels ld) hlt

theorem maxwtNbr_strict_t (ld pld : List (Nat × Nat))
    (hdisj : ∀ l ∈ tLabels ld, l ∉ tLabels pld) {lt m : Nat}
    (hlt : lt ∈ tLabels ld) (hm : StrictBestPrev ld pld lt m) :
    maxwtNbr (overlapEvents ld pld) lt = some m := by
  have hP : ∀ x ∈ tLabels pld, x ≠ lt := fun x hx hxl => hdisj lt hlt (hxl ▸ hx)
  have hnb : nbrs (overlapEvents ld pld) lt = tLabels pld :=
    nbrs_events_t (jacOf ld pld) (tLabels ld) (tLabels pld) lt hP
      (nodup_dedupF _) (nodup_dedupF _) hlt
  rw [maxwtNbr, hnb]
  have hwt : ∀ u ∈ tLabels pld,
      wtD (overlapEvents ld pld) lt u = jacOf ld pld u lt := by
    intro u hu
    exact (wtD_events (jacOf ld pld) (tLabels ld) (tLabels pld) lt u
      (fun x hx y hy hxy => hdisj y hy (hxy ▸ hx))
      (nodup_dedupF _) (nodup_dedupF _) hlt hu).1
  rw [List.map_congr_left (fun u hu => by simp only [hwt u hu] :
    ∀ u ∈ tLabels pld, (fun u => (u, wtD (overlapEvents ld pld) lt u)) u =
      (fun u => (u, jacOf ld pld u lt)) u)]
  rw [firstMax_map_strict (fun u => jacOf ld pld u lt) m (tLabels pld) hm.1 hm.2]
  rfl

theorem maxwtNbr_strict_p (ld pld : List (Nat × Nat))
    (hdisj : ∀ l ∈ tLabels ld, l ∉ tLabels pld) {m l2 : Nat}
    (hm : m ∈ tLabels pld) (hl2 : StrictBestCur ld pld m l2) :
    maxwtNbr (overlapEvents ld pld) m = some l2 := by
  have hT : ∀ x ∈ tLabels ld, x ≠ m := fun x hx hxm => hdisj x hx (hxm ▸ hm)
  have hnb : nbrs (overlapEvents ld pld) m = tLabels ld :=
    nbrs_events_p (jacOf ld pld) (tLabels ld) (tLabels pld) m hT
      (nodup_dedupF _) (nodup_dedupF _) hm
  rw [maxwtNbr, hnb]
  have hwt : ∀ u ∈ tLabels ld,
      wtD (overlapEvents ld pld) m u = jacOf ld pld m u := by
    intro u hu
    exact (wtD_events (jacOf ld pld) (tLabels ld) (tLabels pld) u m
      (fun x hx y hy hxy => hdisj y hy (hxy ▸ hx))
      (nodup_dedupF _) (nodup_dedupF _) hu hm).2
  rw [List.map_congr_left (fun u hu => by simp only [hwt u hu] :
    ∀ u ∈ tLabels ld, (fun u => (u, wtD (overlapEvents ld pld) m u)) u =
      (fun u => (u, jacOf ld pld m u)) u)]
  rw [firstMax_map_strict (fun u => jacOf ld pld m u) l2 (tLabels ld) hl2.1 hl2.2]
  rfl

/-- Evaluation helper for concrete Jaccard overlaps. -/
theorem jacOf_eval {ld pld : List (Nat × Nat)} {lp lt : Nat} (gp gt : List Nat)
    (a b : Nat) (h1 : groupOf pld lp = gp) (h2 : groupOf ld lt = gt)
    (h3 : (gp.toFinset ∩ gt.toFinset).card = a)
    (h4 : (gp.toFinset ∪ gt.toFinset).card = b) :
    jacOf ld pld lp lt = (a : ℚ) / (b : ℚ) := by
  rw [jacOf, jacc, h1, h2, h3, h4]

/-- C1 (amended): assuming additionally that the t-label set and the
t−1-label set are disjoint (the bipartite situation the spec describes) and
that the maximum-overlap choices involved are strictly unique, `match_labels`
relabels a node of t-label group `lt` to the t−1-label `m` of maximum Jaccard
overlap exactly when the match is reciprocal — `m`'s maximum-overlap t-label
is `lt` itself — and keeps `lt` otherwise. -/
theorem match_labels_reciprocal_correct (ld pld : List (Nat × Nat))
    (hk : (ld.map Prod.fst).Nodup)
    (hdisj : ∀ l ∈ tLabels ld, l ∉ tLabels pld)
    (n lt m l2 : Nat) (hn : alookup n ld = some lt)
    (hm : StrictBestPrev ld pld lt m) (hl2 : StrictBestCur ld pld m l2) :
    (match_labels ld pld).bind (alookup n) = some (if l2 = lt then m else lt) := by
  have hpld : pld ≠ [] := by
    intro h
    subst h
    simpa [tLabels, dedupF] using hm.1
  have hlt : lt ∈ tLabels ld := mem_tLabels.mpr ⟨n, alookup_mem hn⟩
  have h1 : mOf (overlapEvents ld pld) lt = m := by
    rw [mOf, maxwtNbr_strict_t ld pld hdisj hlt hm]
    rfl
  have h2 : mOf (overlapEvents ld pld) m = l2 := by
    rw [mOf, maxwtNbr_strict_p ld pld hdisj hm.1 hl2]
    rfl
  rw [match_labels_lookup ld pld hpld hk hn]
  simp only [bestL, h1, h2]

/-- Concrete evaluation shared by the counterexamples: on
`label_dict = {1:0, 2:0, 3:1}`, `prev_label_dict = {1:1, 2:1}`,
`match_labels` maps node `3` to label `0`. -/
theorem match_labels_cex_eval :
    (match_labels [(1,0),(2,0),(3,1)] [(1,1),(2,1)]).bind (alookup 3) = some 0 := by
  have hj10 : jacOf [(1,0),(2,0),(3,1)] [(1,1),(2,1)] 1 0 = 1 :=
    (jacOf_eval [1,2] [1,2] 2 2 (by decide) (by decide) (by decide) (by decide)).trans
      (by norm_num)
  have hj11 : jacOf [(1,0),(2,0),(3,1)] [(1,1),(2,1)] 1 1 = 0 :=
    (jacOf_eval [1,2] [3] 0 3 (by decide) (by decide) (by decide) (by decide)).trans
      (by norm_num)
  have hE : overlapEvents [(1,0),(2,0),(3,1)] [(1,1),(2,1)] =
      [(1, 0, (1 : ℚ)), (1, 1, 0)] := by
    rw [overlapEvents, show tLabels [(1,0),(2,0),(3,1)] = [0, 1] from by decide,
        show tLabels [(1,1),(2,1)] = [1] from by decide]
    simp only [mkEvents, List.flatMap_cons, List.flatMap_nil, List.map_cons,
      List.map_nil, List.append_nil, List.cons_append, List.nil_append]
    rw [hj10, hj11]
  have hbest : bestL [(1,0),(2,0),(3,1)] [(1,1),(2,1)] 1 = 0 := by
    simp only [bestL]
    rw [hE]
    decide
  rw [match_labels_lookup [(1,0),(2,0),(3,1)] [(1,1),(2,1)] (by decide) (by decide)
    (show alookup 3 [(1,0),(2,0),(3,1)] = some 1 from by decide), hbest]

/-- C1 counterexample: with `label_dict = {1:0, 2:0, 3:1}` and
`prev_label_dict = {1:1, 2:1}` (label `1` occurs at both snapshots), the
t-label group `1` = `{3}` has no reciprocal match: its unique maximum-overlap
t−1-label is `1`, and the maximum-overlap t-label of `1` is `0`, not `1`.
The claim then demands that node `3` keep its label `1`, but `match_labels`
relabels it to the other t-label `0`. -/
theorem match_labels_reciprocal_cex :
    StrictBestPrev [(1,0),(2,0),(3,1)] [(1,1),(2,1)] 1 1 ∧
    (∀ m, StrictBestPrev [(1,0),(2,0),(3,1)] [(1,1),(2,1)] 1 m → m = 1) ∧
    ¬ StrictBestCur [(1,0),(2,0),(3,1)] [(1,1),(2,1)] 1 1 ∧
    (match_labels [(1,0),(2,0),(3,1)] [(1,1),(2,1)]).bind (alookup 3) = some 0 ∧
    alookup 3 [(1,0),(2,0),(3,1)] = some 1 ∧ (0 : Nat) ≠ 1 := by
  have hj10 : jacOf [(1,0),(2,0),(3,1)] [(1,1),(2,1)] 1 0 = 1 :=
    (jacOf_eval [1,2] [1,2] 2 2 (by decide) (by decide) (by decide) (by decide)).trans
      (by norm_num)
  have hj11 : jacOf [(1,0),(2,0),(3,1)] [(1,1),(2,1)] 1 1 = 0 :=
    (jacOf_eval [1,2] [3] 0 3 (by decide) (by decide) (by decide) (by decide)).trans
      (by norm_num)
  refine ⟨⟨by decide, ?_⟩, ?_, ?_, match_labels_cex_eval, by decide, by decide⟩
  · intro p hp hne
    rw [show tLabels [(1,1),(2,1)] = [1] from by decide] at hp
    exact absurd (List.mem_singleton.mp hp) hne
  · intro m h
    have h1 := h.1
    rw [show tLabels [(1,1),(2,1)] = [1] from by decide] at h1
    exact List.mem_singleton.mp h1
  · intro hSC
    have h3 := hSC.2 0 (by decide) (by decide)
    rw [hj10, hj11] at h3
    exact absurd h3 (by norm_num)

/-- C1 witness: for `label_dict = {1:10, 2:10, 3:11}` and
`prev_label_dict = {1:20, 2:20, 3:21}` the match `10 ↔ 20` is reciprocal and
node `1` is relabeled to `20`. -/
theorem match_labels_reciprocal_witness :
    (match_labels [(1,10),(2,10),(3,11)] [(1,20),(2,20),(3,21)]).bind (alookup 1) =
      some 20 := by
  have hj2010 : jacOf [(1,10),(2,10),(3,11)] [(1,20),(2,20),(3,21)] 20 10 = 1 :=
    (jacOf_eval [1,2] [1,2] 2 2 (by decide) (by decide) (by decide) (by decide)).trans
      (by norm_num)
  have hj2110 : jacOf [(1,10),(2,10),(3,11)] [(1,20),(2,20),(3,21)] 21 10 = 0 :=
    (jacOf_eval [3] [1,2] 0 3 (by decide) (by decide) (by decide) (by decide)).trans
      (by norm_num)
  have hj2011 : jacOf [(1,10),(2,10),(3,11)] [(1,20),(2,20),(3,21)] 20 11 = 0 :=
    (jacOf_eval [1,2] [3] 0 3 (by decide) (by decide) (by decide) (by decide)).trans
      (by norm_num)
  have hm : StrictBestPrev [(1,10),(2,10),(3,11)] [(1,20),(2,20),(3,21)] 10 20 := by
    refine ⟨by decide, ?_⟩
    intro p hp hne
    rw [show tLabels [(1,20),(2,20),(3,21)] = [20, 21] from by decide] at hp
    rcases List.mem_cons.mp hp with h | h
    · exact absurd h hne
    · rw [List.mem_singleton.mp h, hj2110, hj2010]
      norm_num
  have hl2 : StrictBestCur [(1,10),(2,10),(3,11)] [(1,20),(2,20),(3,21)] 20 10 := by
    refine ⟨by decide, ?_⟩
    intro l hl hne
    rw [show tLabels [(1,10),(2,10),(3,11)] = [10, 11] from by decide] at hl
    rcases List.mem_cons.mp hl with h | h
    · exact absurd h hne
    · rw [List.mem_singleton.mp h, hj2011, hj2010]
      norm_num
  have h := match_labels_reciprocal_correct [(1,10),(2,10),(3,11)]
    [(1,20),(2,20),(3,21)] (by decide) (by decide) 1 10 20 10 (by decide) hm hl2
  simpa using h

theorem mOf_mem_nbrs {E : List (Nat × Nat × ℚ)} {v : Nat}
    (h : v ∈ vertices E) : mOf E v ∈ nbrs E v :=
  maxwtNbr_mem (maxwtNbr_eq_mOf h)

theorem nbrs_mem_labels {ld pld : List (Nat × Nat)} {v u : Nat}
    (h : u ∈ nbrs (overlapEvents ld pld) v) :
    u ∈ tLabels ld ∨ u ∈ tLabels pld := by
  rcases mem_nbrs.mp h with ⟨e, he, hx⟩
  rcases mem_mkEvents.mp he with ⟨h1, h2, _⟩
  rcases hx with ⟨_, hxe⟩ | ⟨_, _, hxe⟩
  · exact Or.inl (hxe ▸ h1)
  · exact Or.inr (hxe ▸ h2)

/-- Two distinct t-label groups never end up with the same label. -/
theorem bestL_inj (ld pld : List (Nat × Nat)) {l1 l2 : Nat}
    (h : bestL ld pld l1 = bestL ld pld l2) : l1 = l2 := by
  by_contra hne
  rw [bestL, bestL] at h
  by_cases c1 : mOf (overlapEvents ld pld) (mOf (overlapEvents ld pld) l1) = l1 <;>
    by_cases c2 : mOf (overlapEvents ld pld) (mOf (overlapEvents ld pld) l2) = l2
  · rw [if_pos c1, if_pos c2] at h
    rw [h] at c1
    exact hne (c1.symm.trans c2)
  · rw [if_pos c1, if_neg c2] at h
    rw [h] at c1
    exact c2 (by rw [c1, h])
  · rw [if_neg c1, if_pos c2] at h
    exact c1 (by rw [h, c2, ← h])
  · rw [if_neg c1, if_neg c2] at h
    exact hne h

/-- C3 (amended): the mapping returned by `match_labels` has exactly the key
set of `label_dict` with every node appearing exactly once, no two distinct
t-label groups receive the same output label, and the output labels are a
subset of the t-labels and t−1-labels.  The remaining conjunct of the claim —
each node gets its original label or the one confirmed-matched ancestor
label — holds under the additional assumption that the t-label set and the
t−1-label set are disjoint (the bipartite situation the spec describes). -/
theorem match_labels_invariants (ld pld : List (Nat × Nat))
    (hk : (ld.map Prod.fst).Nodup) :
    ∃ out, match_labels ld pld = some out ∧
      ((out.map Prod.fst).Nodup ∧ (∀ n, n ∈ out.map Prod.fst ↔ n ∈ ld.map Prod.fst)) ∧
      (∀ n1 n2 x, alookup n1 out = some x → alookup n2 out = some x →
        alookup n1 ld = alookup n2 ld) ∧
      (∀ n l, alookup n out = some l → l ∈ tLabels ld ∨ l ∈ tLabels pld) ∧
      ((∀ l ∈ tLabels ld, l ∉ tLabels pld) →
        ∀ n l, alookup n out = some l →
          alookup n ld = some l ∨
          (l ∈ tLabels pld ∧ ∃ lt, alookup n ld = some lt ∧ ConfirmedPair ld pld lt l)) := by
  by_cases hpld : pld = []
  · subst hpld
    refine ⟨ld, by rw [match_labels, if_pos rfl], ⟨hk, fun n => Iff.rfl⟩, ?_, ?_, ?_⟩
    · intro n1 n2 x h1 h2
      rw [h1, h2]
    · intro n l h
      exact Or.inl (mem_tLabels.mpr ⟨n, alookup_mem h⟩)
    · intro _ n l h
      exact Or.inl h
  · refine ⟨_, match_labels_eq ld pld hpld, ?_, ?_, ?_, ?_⟩
    all_goals
      have hlook : ∀ {n lt : Nat}, alookup n ld = some lt →
          alookup n (((tLabels ld).map (fun lt =>
            (groupOf ld lt).map (fun n => (n, bestL ld pld lt)))).flatten) =
            some (bestL ld pld lt) := by
        intro n lt hn
        have h := match_labels_lookup ld pld hpld hk hn
        rwa [match_labels_eq ld pld hpld, Option.some_bind] at h
      have hkeys : (((tLabels ld).map (fun lt =>
          (groupOf ld lt).map (fun n => (n, bestL ld pld lt)))).flatten).map Prod.fst =
          ((tLabels ld).map (fun lt => groupOf ld lt)).flatten := by
        rw [List.map_flatten, List.map_map]
        congr 1
        refine List.map_congr_left ?_
        intro lt _
        simp only [Function.comp, List.map_map]
        exact (List.map_congr_left (fun x _ => rfl)).trans (List.map_id _)
      have hmemk : ∀ n, n ∈ (((tLabels ld).map (fun lt =>
          (groupOf ld lt).map (fun n => (n, bestL ld pld lt)))).flatten).map Prod.fst ↔
          n ∈ ld.map Prod.fst := by
        intro n
        rw [hkeys, List.mem_flatten]
        constructor
        · rintro ⟨g, hg, hn⟩
          rcases List.mem_map.mp hg with ⟨lt, _, hlt⟩
          have hm : (n, lt) ∈ ld := mem_groupOf.mp (hlt ▸ hn)
          exact List.mem_map.mpr ⟨(n, lt), hm, rfl⟩
        · intro hn
          rcases mem_keys_alookup hn with ⟨v, hv⟩
          have hm := alookup_mem hv
          exact ⟨groupOf ld v, List.mem_map.mpr ⟨v, mem_tLabels.mpr ⟨n, hm⟩, rfl⟩,
            mem_groupOf.mpr hm⟩
      have hsome : ∀ {n x : Nat}, alookup n (((tLabels ld).map (fun lt =>
          (groupOf ld lt).map (fun n => (n, bestL ld pld lt)))).flatten) = some x →
          ∃ lt, alookup n ld = some lt ∧ x = bestL ld pld lt := by
        intro n x h
        have hn : n ∈ ld.map Prod.fst := by
          refine (hmemk n).mp ?_
          exact List.mem_map.mpr ⟨(n, x), alookup_mem h, rfl⟩
        rcases mem_keys_alookup hn with ⟨lt, hlt⟩
        refine ⟨lt, hlt, ?_⟩
        have := hlook hlt
        rw [h] at this
        exact Option.some.inj this
    · constructor
      · rw [hkeys, List.nodup_flatten]
        constructor
        · intro g hg
          rcases List.mem_map.mp hg with ⟨lt, _, hlt⟩
          rw [← hlt, groupOf]
          exact List.Nodup.sublist (List.Sublist.map _ (List.filter_sublist _)) hk
        · rw [List.pairwise_map]
          refine List.Pairwise.imp ?_ (nodup_dedupF (ld.map Prod.snd))
          intro a b hab x hxa hxb
          have h1 := alookup_of_mem_nodup hk (mem_groupOf.mp hxa)
          have h2 := alookup_of_mem_nodup hk (mem_groupOf.mp hxb)
          rw [h1] at h2
          exact hab (Option.some.inj h2)
      · exact hmemk
    · intro n1 n2 x h1 h2
      rcases hsome h1 with ⟨l1, hl1, hx1⟩
      rcases hsome h2 with ⟨l2, hl2, hx2⟩
      have : l1 = l2 := bestL_inj ld pld (hx1 ▸ hx2 ▸ rfl)
      rw [hl1, hl2, this]
    · intro n l h
      rcases hsome h with ⟨lt, hlt, hx⟩
      have hltT : lt ∈ tLabels ld := mem_tLabels.mpr ⟨n, alookup_mem hlt⟩
      rw [bestL] at hx
      by_cases c : mOf (overlapEvents ld pld) (mOf (overlapEvents ld pld) lt) = lt
      · rw [if_pos c] at hx
        have hv : lt ∈ vertices (overlapEvents ld pld) :=
          tLabel_mem_vertices hpld hltT
        rcases nbrs_mem_labels (mOf_mem_nbrs hv) with h1 | h1
        · exact Or.inl (hx ▸ h1)
        · exact Or.inr (hx ▸ h1)
      · rw [if_neg c] at hx
        exact Or.inl (hx ▸ hltT)
    · intro hdisj n l h
      rcases hsome h with ⟨lt, hlt, hx⟩
      have hltT : lt ∈ tLabels ld := mem_tLabels.mpr ⟨n, alookup_mem hlt⟩
      rw [bestL] at hx
      by_cases c : mOf (overlapEvents ld pld) (mOf (overlapEvents ld pld) lt) = lt
      · rw [if_pos c] at hx
        have hv : lt ∈ vertices (overlapEvents ld pld) :=
          tLabel_mem_vertices hpld hltT
        have hP : ∀ x ∈ tLabels pld, x ≠ lt :=
          fun x hxp hxl => hdisj lt hltT (hxl ▸ hxp)
        have hnb : nbrs (overlapEvents ld pld) lt = tLabels pld :=
          nbrs_events_t (jacOf ld pld) (tLabels ld) (tLabels pld) lt hP
            (nodup_dedupF _) (nodup_dedupF _) hltT
        have hmP : mOf (overlapEvents ld pld) lt ∈ tLabels pld := by
          rw [← hnb]
          exact mOf_mem_nbrs hv
        refine Or.inr ⟨hx ▸ hmP, lt, hlt, ?_, ?_⟩
        · rw [succL, maxwtNbr_eq_mOf hv, hx]
        · rw [succL, hx, maxwtNbr_eq_mOf (mOf_mem_vertices hv), c]
      · rw [if_neg c] at hx
        exact Or.inl (hx ▸ hlt)

/-- C3 counterexample: on `label_dict = {1:0, 2:0, 3:1}`,
`prev_label_dict = {1:1, 2:1}`, node `3` receives the label `0`, which is
neither its original label `1` nor any t−1-label (t−1-labels are `{1}`):
the "original label or confirmed-matched ancestor label" conjunct fails when
the label sets of the two snapshots overlap. -/
theorem match_labels_invariants_cex :
    (([(1,0),(2,0),(3,1)] : List (Nat × Nat)).map Prod.fst).Nodup ∧
    (match_labels [(1,0),(2,0),(3,1)] [(1,1),(2,1)]).bind (alookup 3) = some 0 ∧
    alookup 3 [(1,0),(2,0),(3,1)] = some 1 ∧ (0 : Nat) ≠ 1 ∧
    (0 : Nat) ∉ tLabels [(1,1),(2,1)] :=
  ⟨by decide, match_labels_cex_eval, by decide, by decide, by decide⟩

/-- C3 witness: the invariants instantiated at `label_dict = {1:0}`,
`prev_label_dict = {2:5}`. -/
theorem match_labels_invariants_witness :
    ∃ out, match_labels [(1,0)] [(2,5)] = some out ∧
      ((out.map Prod.fst).Nodup ∧
        (∀ n, n ∈ out.map Prod.fst ↔ n ∈ ([(1,0)] : List (Nat × Nat)).map Prod.fst)) ∧
      (∀ n1 n2 x, alookup n1 out = some x → alookup n2 out = some x →
        alookup n1 [(1,0)] = alookup n2 [(1,0)]) ∧
      (∀ n l, alookup n out = some l → l ∈ tLabels [(1,0)] ∨ l ∈ tLabels [(2,5)]) ∧
      ((∀ l ∈ tLabels [(1,0)], l ∉ tLabels [(2,5)]) →
        ∀ n l, alookup n out = some l →
          alookup n [(1,0)] = some l ∨
          (l ∈ tLabels [(2,5)] ∧ ∃ lt, alookup n [(1,0)] = some lt ∧
            ConfirmedPair [(1,0)] [(2,5)] lt l)) :=
  match_labels_invariants [(1,0)] [(2,5)] (by decide)

/-- C7: with an empty `prev_label_dict` (first snapshot), `match_labels`
returns `label_dict` unchanged. -/
theorem match_labels_empty_prev (ld : List (Nat × Nat)) :
    match_labels ld [] = some ld := by
  rw [match_labels, if_pos rfl]

/-- C9: for every `label_dict` and non-empty `prev_label_dict`,
`match_labels` terminates normally with a result: the
`successors(...)[0]` accesses and the `max` over a neighbor list never fail,
because every vertex of the densely built overlap graph has a neighbor. -/
theorem match_labels_no_crash (ld pld : List (Nat × Nat)) (_h : pld ≠ []) :
    ∃ out, match_labels ld pld = some out :=
  match_labels_total ld pld

/-- C9 witness. -/
theorem match_labels_no_crash_witness :
    ∃ out, match_labels [(1, 0)] [(1, 1)] = some out :=
  match_labels_no_crash [(1, 0)] [(1, 1)] (by decide)

/-- C10: when the raw edge-tuple sets of `Zgraph` and `G` do not intersect,
`Estrangement` returns 0 for every `label_dict` — even one with no entry for
an endpoint of a `Zgraph` edge — because no label lookup is performed. -/
theorem Estrangement_empty_consort (G Z : Graph)
    (h : Z.tuples.toFinset ∩ G.tuples.toFinset = ∅) :
    ∀ ld, Estrangement G ld Z = some 0 := by
  intro ld
  rw [Estrangement, if_pos h]

/-- C10 witness: a `Zgraph` with an edge but a `label_dict` with no entries
at all still yields 0 when the consort intersection is empty. -/
theorem Estrangement_empty_consort_witness :
    Estrangement ⟨[3, 4], [((3, 4), some 1)]⟩ []
      ⟨[1, 2], [((1, 2), some 1)]⟩ = some 0 :=
  Estrangement_empty_consort ⟨[3, 4], [((3, 4), some 1)]⟩
    ⟨[1, 2], [((1, 2), some 1)]⟩ (by decide) []

theorem sum_map_ite_zero {α : Type} (p : α → Prop) [DecidablePred p]
    (w : α → ℚ) : ∀ (l : List α),
    (l.map (fun a => if p a then w a else 0)).sum =
      ((l.filter (fun a => decide (p a))).map w).sum := by
  intro l
  induction l with
  | nil => rfl
  | cons a l ih =>
    by_cases hp : p a
    · rw [List.map_cons, if_pos hp, List.filter_cons_of_pos (by simpa using hp),
        List.map_cons, List.sum_cons, List.sum_cons, ih]
    · rw [List.map_cons, if_neg hp, List.filter_cons_of_neg (by simpa using hp),
        List.sum_cons, ih, zero_add]

/-- The Estrangement numerator, when every label lookup succeeds and every
`Zgraph` edge whose endpoints' labels differ carries a weight. -/
theorem estrNumer_eval (Z : Graph) (ld : List (Nat × Nat))
    (hw : ∀ e ∈ Z.edges, alookup e.1.1 ld ≠ alookup e.1.2 ld → e.2.isSome)
    (hl : ∀ e ∈ Z.edges, (alookup e.1.1 ld).isSome ∧ (alookup e.1.2 ld).isSome) :
    estrNumer Z ld = some (claimNumer Z ld) := by
  rw [estrNumer]
  have homap : omap (fun e : (Nat × Nat) × Option ℚ =>
      match alookup e.1.1 ld, alookup e.1.2 ld with
      | some a, some b => if a ≠ b then e.2 else some (0 : ℚ)
      | _, _ => none) Z.edges = some (Z.edges.map (fun e =>
        if alookup e.1.1 ld ≠ alookup e.1.2 ld then e.2.getD 0 else 0)) := by
    refine omap_eq_map _ _ _ ?_
    intro e he
    rcases Option.isSome_iff_exists.mp (hl e he).1 with ⟨a, ha⟩
    rcases Option.isSome_iff_exists.mp (hl e he).2 with ⟨b, hb⟩
    rw [ha, hb]
    by_cases hab : a = b
    · subst hab
      show (if a ≠ a then e.2 else some (0 : ℚ)) = _
      rw [if_neg (fun hh => hh rfl), if_neg (fun hh => hh rfl)]
    · have hne : alookup e.1.1 ld ≠ alookup e.1.2 ld := by
        rw [ha, hb]
        exact fun hh => hab (Option.some.inj hh)
      rcases Option.isSome_iff_exists.mp (hw e he hne) with ⟨v, hv⟩
      show (if a ≠ b then e.2 else some (0 : ℚ)) = _
      rw [if_pos hab,
        if_pos (show (some a : Option Nat) ≠ some b from
          fun hh => hab (Option.some.inj hh)),
        hv]
      rfl
  rw [homap]
  rw [Option.map_some']
  rw [claimNumer, sum_map_ite_zero]

theorem Gsize_eq_claimDenom (G : Graph) (hw : ∀ e ∈ G.edges, e.2.isSome) :
    Gsize G = claimDenom G := by
  rw [Gsize, claimDenom]
  refine congrArg List.sum (List.map_congr_left ?_)
  intro e he
  rcases Option.isSome_iff_exists.mp (hw e he) with ⟨w, hwe⟩
  rw [hwe]
  rfl

/-- C2: if the edge sets of `Zgraph` and `G` do not intersect, `Estrangement`
is 0; otherwise — when every `Zgraph` edge carries a weight, every `Zgraph`
endpoint has a label, every `G` edge carries a weight and the total weight of
`G` is nonzero — it is the sum of the weights of ALL `Zgraph` edges whose
endpoints receive different labels (not only edges in the intersection),
divided by the sum of all edge weights of `G`. -/
theorem Estrangement_spec (G Z : Graph) (ld : List (Nat × Nat)) :
    (Z.tuples.toFinset ∩ G.tuples.toFinset = ∅ → Estrangement G ld Z = some 0) ∧
    (Z.tuples.toFinset ∩ G.tuples.toFinset ≠ ∅ →
      (∀ e ∈ Z.edges, e.2.isSome) →
      (∀ e ∈ Z.edges, (alookup e.1.1 ld).isSome ∧ (alookup e.1.2 ld).isSome) →
      (∀ e ∈ G.edges, e.2.isSome) →
      claimDenom G ≠ 0 →
      Estrangement G ld Z = some (claimNumer Z ld / claimDenom G)) := by
  constructor
  · intro h
    rw [Estrangement, if_pos h]
  · intro hne hzw hl hgw hd
    rw [Estrangement, if_neg hne, estrNumer_eval Z ld (fun e he _ => hzw e he) hl]
    show (if Gsize G = 0 then none else some (claimNumer Z ld / Gsize G)) = _
    rw [Gsize_eq_claimDenom G hgw, if_neg hd]

/-- C2 witness: the spec's concrete example — `G` with weighted edges
`(1,2,2),(1,3,1),(2,3,1)`, `Zgraph` with edge `(1,2,2)`, labels
`{1:0, 2:0, 3:1}`; the consort intersection is non-empty and the value is
`0/4 = 0`. -/
theorem Estrangement_spec_witness :
    Estrangement ⟨[1, 2, 3], [((1,2), some 2), ((1,3), some 1), ((2,3), some 1)]⟩
      [(1,0), (2,0), (3,1)] ⟨[1, 2], [((1,2), some 2)]⟩ =
      some (claimNumer ⟨[1, 2], [((1,2), some 2)]⟩ [(1,0), (2,0), (3,1)] /
        claimDenom ⟨[1, 2, 3],
          [((1,2), some 2), ((1,3), some 1), ((2,3), some 1)]⟩) := by
  refine (Estrangement_spec _ _ _).2 (by decide) (by decide) (by decide) (by decide) ?_
  norm_num [claimDenom, Option.getD]

/-- C6 (amended): the degenerate-input cases of the distance metrics (empty
edge union in unweighted `graph_distance`, empty node union in
`node_graph_distance`) and the missing-weight case of weighted
`graph_distance` fail explicitly (`none`); in `Estrangement`, a missing label
or a missing weight on a label-differing `Zgraph` edge fails explicitly when
the consort intersection is non-empty; but `confidence_interval` on an empty
sample does not fail — `numpy` propagates a silent NaN through the division —
and an edge of `G` lacking a weight never causes a failure — it is silently
defaulted to weight 1 in the denominator. -/
theorem errors_explicit :
    (∀ g0 g1 : Graph, g1.tuples.toFinset ∪ g0.tuples.toFinset = ∅ →
      graph_distance g0 g1 false = none) ∧
    (∀ g0 g1 : Graph, g0.nodes.toFinset ∪ g1.nodes.toFinset = ∅ →
      node_graph_distance g0 g1 = none) ∧
    confidence_interval [] = NpFloat.nan ∧
    (∀ g0 g1 : Graph,
      (∃ t ∈ g0.tuples, wOf g0 t = none) ∨ (∃ t ∈ g1.tuples, wOf g1 t = none) →
      graph_distance g0 g1 true = none) ∧
    (∀ (G Z : Graph) (ld : List (Nat × Nat)),
      Z.tuples.toFinset ∩ G.tuples.toFinset ≠ ∅ →
      (∃ e ∈ Z.edges, alookup e.1.1 ld = none ∨ alookup e.1.2 ld = none ∨
        (alookup e.1.1 ld ≠ alookup e.1.2 ld ∧ e.2 = none)) →
      Estrangement G ld Z = none) ∧
    (∀ (G Z : Graph) (ld : List (Nat × Nat)),
      Z.tuples.toFinset ∩ G.tuples.toFinset ≠ ∅ →
      (∀ e ∈ Z.edges, (alookup e.1.1 ld).isSome ∧ (alookup e.1.2 ld).isSome) →
      (∀ e ∈ Z.edges, alookup e.1.1 ld ≠ alookup e.1.2 ld → e.2.isSome) →
      Gsize G ≠ 0 →
      ∃ q, Estrangement G ld Z = some q) := by
  refine ⟨?_, ?_, ?_, ?_, ?_, ?_⟩
  · intro g0 g1 h
    rw [graph_distance]
    simp only [if_pos rfl]
    have hc : (g1.tuples.toFinset ∪ g0.tuples.toFinset).card = 0 := by
      rw [h]
      rfl
    rw [if_pos hc]
    exact if_pos trivial
  · intro g0 g1 h
    rw [node_graph_distance]
    have hc : (g0.nodes.toFinset ∪ g1.nodes.toFinset).card = 0 := by
      rw [h]
      rfl
    rw [if_pos hc]
  · rw [confidence_interval]
    simp
  · intro g0 g1 h
    rw [graph_distance]
    simp only [Bool.true_eq_false, if_false]
    rcases h with ⟨t, ht, hwt⟩ | ⟨t, ht, hwt⟩
    · have hn : normSum g0 = none := by
        rw [normSum, omap_eq_none (fun t => (wOf g0 t).map (fun w => w * w)) ht
          (by simp [hwt])]
        rfl
      rw [hn]
      cases dotProd g0 g1 <;> cases normSum g1 <;> rfl
    · have hn : normSum g1 = none := by
        rw [normSum, omap_eq_none (fun t => (wOf g1 t).map (fun w => w * w)) ht
          (by simp [hwt])]
        rfl
      rw [hn]
      cases dotProd g0 g1 <;> rfl
  · intro G Z ld hne ⟨e, he, hcase⟩
    rw [Estrangement, if_neg hne]
    have hnum : estrNumer Z ld = none := by
      rw [estrNumer]
      have hf : (match alookup e.1.1 ld, alookup e.1.2 ld with
          | some a, some b => if a ≠ b then e.2 else some (0 : ℚ)
          | _, _ => none) = none := by
        rcases ha : alookup e.1.1 ld with _ | a
        · cases alookup e.1.2 ld <;> rfl
        · rcases hb : alookup e.1.2 ld with _ | b
          · rfl
          · rcases hcase with h1 | h1 | ⟨h1, h2⟩
            · rw [ha] at h1
              exact absurd h1 (by simp)
            · rw [hb] at h1
              exact absurd h1 (by simp)
            · rw [ha, hb] at h1
              show (if a ≠ b then e.2 else some (0 : ℚ)) = none
              rw [if_pos (fun hh => h1 (by rw [hh])), h2]
      rw [omap_eq_none _ he hf]
      rfl
    rw [hnum]
  · intro G Z ld hne hl hw hd
    refine ⟨claimNumer Z ld / Gsize G, ?_⟩
    rw [Estrangement, if_neg hne, estrNumer_eval Z ld hw hl]
    show (if Gsize G = 0 then none else some (claimNumer Z ld / Gsize G)) = _
    rw [if_neg hd]

/-- C6 counterexample: two violations of the claim. `Estrangement` applied
to a `G` whose edge `(2,3)` carries no weight does not fail — networkx's
`G.size(weight='weight')` silently defaults the missing weight to 1, so the
call returns `2 / (2+1+1) = 1/2` instead of a missing-input failure.  And
`confidence_interval` on the empty sample is not surfaced as an explicit
division-undefined failure: `numpy.std([])` is NaN and the `np.float64`
division by `math.sqrt(0) = 0.0` propagates it silently. -/
theorem errors_explicit_cex :
    Estrangement ⟨[1, 2, 3], [((1,2), some 2), ((1,3), some 1), ((2,3), none)]⟩
      [(1,0), (2,1)] ⟨[1, 2], [((1,2), some 2)]⟩ = some (1/2) ∧
    (some (1/2 : ℚ) : Option ℚ) ≠ none ∧
    confidence_interval [] = NpFloat.nan ∧
    (∀ x : ℝ, NpFloat.nan ≠ NpFloat.val x) := by
  refine ⟨?_, by simp, by rw [confidence_interval]; simp, fun x h => by cases h⟩
  · rw [Estrangement, if_neg (by decide),
      estrNumer_eval ⟨[1, 2], [((1,2), some 2)]⟩ [(1,0), (2,1)] (by decide) (by decide)]
    have hcn : claimNumer ⟨[1, 2], [((1,2), some 2)]⟩ [(1,0), (2,1)] = 2 := by
      norm_num [claimNumer, alookup, List.filter]
    have hgs : Gsize ⟨[1, 2, 3],
        [((1,2), some 2), ((1,3), some 1), ((2,3), none)]⟩ = 4 := by
      norm_num [Gsize, Option.getD]
    show (if Gsize ⟨[1, 2, 3], [((1,2), some 2), ((1,3), some 1), ((2,3), none)]⟩ = 0
        then none
        else some (claimNumer ⟨[1, 2], [((1,2), some 2)]⟩ [(1,0), (2,1)] /
          Gsize ⟨[1, 2, 3], [((1,2), some 2), ((1,3), some 1), ((2,3), none)]⟩)) =
      some (1/2)
    rw [hcn, hgs, if_neg (by norm_num)]
    norm_num

/-- C6 witness: each explicit-failure case at a concrete input, the silent
NaN on the empty sample, plus the defaulting conjunct at a weighted input. -/
theorem errors_explicit_witness :
    graph_distance ⟨[], []⟩ ⟨[], []⟩ false = none ∧
    node_graph_distance ⟨[], []⟩ ⟨[], []⟩ = none ∧
    confidence_interval [] = NpFloat.nan ∧
    graph_distance ⟨[1, 2], [((1,2), none)]⟩ ⟨[], []⟩ true = none ∧
    Estrangement ⟨[1, 2], [((1,2), some 1)]⟩ [] ⟨[1, 2], [((1,2), some 1)]⟩ = none ∧
    (∃ q, Estrangement ⟨[1, 2], [((1,2), some 1)]⟩ [(1,0), (2,1)]
      ⟨[1, 2], [((1,2), some 1)]⟩ = some q) := by
  refine ⟨errors_explicit.1 _ _ (by decide),
    errors_explicit.2.1 _ _ (by decide),
    errors_explicit.2.2.1,
    errors_explicit.2.2.2.1 _ _ (Or.inl ⟨(1, 2), by decide, by decide⟩),
    errors_explicit.2.2.2.2.1 _ _ _ (by decide)
      ⟨((1,2), some 1), by decide, Or.inl (by decide)⟩,
    errors_explicit.2.2.2.2.2 _ _ _ (by decide) (by decide) (by decide) ?_⟩
  norm_num [Gsize, Option.getD]

theorem sum_sub_sq (c : ℚ) : ∀ (l : List ℚ),
    (l.map (fun x => (x - c) ^ 2)).sum =
      (l.map (fun x => x ^ 2)).sum - 2 * c * l.sum + l.length * c ^ 2 := by
  intro l
  induction l with
  | nil => simp
  | cons a l ih =>
    simp only [List.map_cons, List.sum_cons, List.length_cons, ih]
    push_cast
    ring

/-- `numpy`'s population variance agrees with the mean-of-squares form. -/
theorem npVar_eq_specPopVar (l : List ℚ) (h : l ≠ []) : npVar l = specPopVar l := by
  have hn : (l.length : ℚ) ≠ 0 := by
    refine Nat.cast_ne_zero.mpr ?_
    intro h0
    exact h (List.length_eq_zero.mp h0)
  rw [npVar, npMean, specPopVar, sum_sub_sq]
  field_simp
  ring

/-- C8: for every non-empty list, `confidence_interval` is 1.96 times the
population (not Bessel-corrected) standard deviation divided by the square
root of the sample size; in particular it is 0 on `[2,2,2,2]` and 0.98 on
`[2,2,4,4]`, and it is invariant under permutation of the input. -/
theorem confidence_interval_spec :
    (∀ l : List ℚ, l ≠ [] → confidence_interval l =
      NpFloat.val (1.96 * Real.sqrt ((specPopVar l : ℚ) : ℝ) /
        Real.sqrt (l.length : ℝ))) ∧
    confidence_interval [2, 2, 2, 2] = NpFloat.val 0 ∧
    confidence_interval [2, 2, 4, 4] = NpFloat.val 0.98 ∧
    (∀ l l' : List ℚ, l.Perm l' → confidence_interval l = confidence_interval l') := by
  refine ⟨?_, ?_, ?_, ?_⟩
  · intro l h
    rw [confidence_interval,
      if_neg (fun h0 => h (List.length_eq_zero.mp h0)),
      npVar_eq_specPopVar l h]
  · have hv : npVar [2, 2, 2, 2] = 0 := by
      norm_num [npVar, npMean]
    rw [confidence_interval, if_neg (by norm_num), hv]
    norm_num
  · have hv : npVar [2, 2, 4, 4] = 1 := by
      norm_num [npVar, npMean]
    rw [confidence_interval, if_neg (by norm_num), hv]
    have h4 : Real.sqrt ((([2, 2, 4, 4] : List ℚ).length : ℕ) : ℝ) = 2 := by
      rw [show ((([2, 2, 4, 4] : List ℚ).length : ℕ) : ℝ) = 2 ^ 2 by norm_num,
        Real.sqrt_sq (by norm_num : (0 : ℝ) ≤ 2)]
    rw [h4]
    norm_num
  · intro l l' hp
    have hm : npMean l = npMean l' := by
      rw [npMean, npMean, hp.sum_eq, hp.length_eq]
    have hv : npVar l = npVar l' := by
      rw [npVar, npVar, hp.length_eq, hm,
        (hp.map (fun x => (x - npMean l') ^ 2)).sum_eq]
    simp only [confidence_interval, hp.length_eq, hv]

/-- C8 witness: the formula conjunct applied at `[2,2,4,4]`. -/
theorem confidence_interval_spec_witness :
    confidence_interval [2, 2, 4, 4] =
      NpFloat.val (1.96 * Real.sqrt ((specPopVar [2, 2, 4, 4] : ℚ) : ℝ) /
        Real.sqrt ((([2, 2, 4, 4] : List ℚ).length : ℕ) : ℝ)) :=
  confidence_interval_spec.1 [2, 2, 4, 4] (by simp)

theorem wf_tuples_nodup_map {g : Graph} (h : g.WF) :
    (g.tuples.map normPair).Nodup := by
  rw [Graph.tuples, List.map_map]
  exact h

theorem wf_injOn_tuples {g : Graph} (h : g.WF) :
    ∀ t ∈ g.tuples, ∀ t' ∈ g.tuples, normPair t = normPair t' → t = t' :=
  fun t ht t' ht' heq => List.inj_on_of_nodup_map (wf_tuples_nodup_map h) ht ht' heq

theorem normPair_injOn_union (g0 g1 : Graph) (h0 : g0.WF) (h1 : g1.WF)
    (hoc : OrientConsistent g0 g1) :
    Set.InjOn normPair ↑(g1.tuples.toFinset ∪ g0.tuples.toFinset) := by
  intro a ha b hb heq
  rw [Finset.coe_union, Set.mem_union, Finset.mem_coe, Finset.mem_coe,
    List.mem_toFinset, List.mem_toFinset] at ha hb
  rcases ha with ha | ha <;> rcases hb with hb | hb
  · exact wf_injOn_tuples h1 a ha b hb heq
  · exact (hoc b hb a ha heq.symm).symm
  · exact hoc a ha b hb heq
  · exact wf_injOn_tuples h0 a ha b hb heq

theorem image_inter_normPair (g0 g1 : Graph) (hoc : OrientConsistent g0 g1) :
    (g1.tuples.toFinset ∩ g0.tuples.toFinset).image normPair = uE g0 ∩ uE g1 := by
  ext s
  simp only [Finset.mem_image, Finset.mem_inter, List.mem_toFinset, uE]
  constructor
  · rintro ⟨t, ⟨ht1, ht0⟩, hts⟩
    exact ⟨⟨t, ht0, hts⟩, ⟨t, ht1, hts⟩⟩
  · rintro ⟨⟨a, ha, has⟩, ⟨b, hb, hbs⟩⟩
    have hab : a = b := hoc a ha b hb (has.trans hbs.symm)
    exact ⟨a, ⟨hab ▸ hb, ha⟩, has⟩

theorem image_union_normPair (g0 g1 : Graph) :
    (g1.tuples.toFinset ∪ g0.tuples.toFinset).image normPair = uE g0 ∪ uE g1 := by
  rw [Finset.image_union, uE, uE, Finset.union_comm]

/-- C4 (amended): whenever the two graphs store every shared unordered edge
with the same tuple orientation, unweighted `graph_distance` is the Jaccard
distance of the unordered edge sets; it lies in `[0,1]` and equals 1 exactly
when the unordered edge sets are disjoint (their union being non-empty by
hypothesis). -/
theorem graph_distance_unweighted_spec (g0 g1 : Graph)
    (h0 : g0.WF) (h1 : g1.WF) (hoc : OrientConsistent g0 g1)
    (hne : uE g0 ∪ uE g1 ≠ ∅) :
    graph_distance g0 g1 false = some (specJdist g0 g1) ∧
    0 ≤ specJdist g0 g1 ∧ specJdist g0 g1 ≤ 1 ∧
    (specJdist g0 g1 = 1 ↔ (uE g0 ∩ uE g1 = ∅ ∧ uE g0 ∪ uE g1 ≠ ∅)) := by
  have hinj := normPair_injOn_union g0 g1 h0 h1 hoc
  have hcardU : (g1.tuples.toFinset ∪ g0.tuples.toFinset).card =
      (uE g0 ∪ uE g1).card := by
    rw [← image_union_normPair g0 g1, Finset.card_image_of_injOn hinj]
  have hcardI : (g1.tuples.toFinset ∩ g0.tuples.toFinset).card =
      (uE g0 ∩ uE g1).card := by
    rw [← image_inter_normPair g0 g1 hoc, Finset.card_image_of_injOn
      (hinj.mono (Finset.coe_subset.mpr
        (Finset.inter_subset_left.trans Finset.subset_union_left)))]
  have hUne : (uE g0 ∪ uE g1).card ≠ 0 := by
    intro h
    exact hne (Finset.card_eq_zero.mp h)
  have hposQ : (0 : ℚ) < ((uE g0 ∪ uE g1).card : ℚ) := by
    exact_mod_cast Nat.pos_of_ne_zero hUne
  have hle : (uE g0 ∩ uE g1).card ≤ (uE g0 ∪ uE g1).card :=
    Finset.card_le_card (Finset.inter_subset_left.trans Finset.subset_union_left)
  refine ⟨?_, ?_, ?_, ?_⟩
  · show (if (g1.tuples.toFinset ∪ g0.tuples.toFinset).card = 0 then none
        else some ((((g1.tuples.toFinset ∪ g0.tuples.toFinset).card : ℚ) -
          ((g1.tuples.toFinset ∩ g0.tuples.toFinset).card : ℚ)) /
          ((g1.tuples.toFinset ∪ g0.tuples.toFinset).card : ℚ))) =
      some (specJdist g0 g1)
    rw [if_neg (by rw [hcardU]; exact hUne), hcardU, hcardI, specJdist]
  · refine div_nonneg ?_ (le_of_lt hposQ)
    rw [sub_nonneg]
    exact_mod_cast hle
  · rw [specJdist]
    refine div_le_one_of_le₀ ?_ (le_of_lt hposQ)
    have : (0 : ℚ) ≤ ((uE g0 ∩ uE g1).card : ℚ) := by positivity
    linarith
  · rw [specJdist, div_eq_one_iff_eq (ne_of_gt hposQ)]
    constructor
    · intro h
      refine ⟨?_, hne⟩
      have : ((uE g0 ∩ uE g1).card : ℚ) = 0 := by linarith
      exact Finset.card_eq_zero.mp (by exact_mod_cast this)
    · rintro ⟨h, _⟩
      rw [h]
      simp

/-- C4 counterexample: the same undirected edge `{0, 8}` stored as the tuple
`(0, 8)` in one graph and as `(8, 0)` in the other (networkx's reported
orientation depends on adjacency iteration order): under order-independent
edge identity the two edge sets are equal and the Jaccard distance is 0, but
the code intersects the raw tuples and returns 1. -/
theorem graph_distance_unweighted_cex :
    graph_distance ⟨[0, 8], [((0, 8), none)]⟩ ⟨[8, 0], [((8, 0), none)]⟩ false =
      some 1 ∧
    specJdist ⟨[0, 8], [((0, 8), none)]⟩ ⟨[8, 0], [((8, 0), none)]⟩ = 0 ∧
    uE ⟨[0, 8], [((0, 8), none)]⟩ = uE ⟨[8, 0], [((8, 0), none)]⟩ ∧
    (1 : ℚ) ≠ 0 := by
  refine ⟨?_, ?_, by decide, by norm_num⟩
  · show (if ((Graph.mk [8, 0] [((8, 0), none)]).tuples.toFinset ∪
          (Graph.mk [0, 8] [((0, 8), none)]).tuples.toFinset).card = 0 then none
        else some (((((Graph.mk [8, 0] [((8, 0), none)]).tuples.toFinset ∪
            (Graph.mk [0, 8] [((0, 8), none)]).tuples.toFinset).card : ℚ) -
          (((Graph.mk [8, 0] [((8, 0), none)]).tuples.toFinset ∩
            (Graph.mk [0, 8] [((0, 8), none)]).tuples.toFinset).card : ℚ)) /
          ((((Graph.mk [8, 0] [((8, 0), none)]).tuples.toFinset ∪
            (Graph.mk [0, 8] [((0, 8), none)]).tuples.toFinset).card : ℚ)))) =
      some 1
    rw [show ((Graph.mk [8, 0] [((8, 0), none)]).tuples.toFinset ∪
        (Graph.mk [0, 8] [((0, 8), none)]).tuples.toFinset).card = 2 from by decide,
      show ((Graph.mk [8, 0] [((8, 0), none)]).tuples.toFinset ∩
        (Graph.mk [0, 8] [((0, 8), none)]).tuples.toFinset).card = 0 from by decide]
    norm_num
  · rw [specJdist,
      show (uE ⟨[0, 8], [((0, 8), none)]⟩ ∪ uE ⟨[8, 0], [((8, 0), none)]⟩).card = 1
        from by decide,
      show (uE ⟨[0, 8], [((0, 8), none)]⟩ ∩ uE ⟨[8, 0], [((8, 0), none)]⟩).card = 1
        from by decide]
    norm_num

/-- C4 witness: consistently oriented graphs sharing the edge `(1,2)`. -/
theorem graph_distance_unweighted_witness :
    graph_distance ⟨[1, 2, 3], [((1, 2), none), ((1, 3), none)]⟩
        ⟨[1, 2], [((1, 2), none)]⟩ false =
      some (specJdist ⟨[1, 2, 3], [((1, 2), none), ((1, 3), none)]⟩
        ⟨[1, 2], [((1, 2), none)]⟩) ∧
    0 ≤ specJdist ⟨[1, 2, 3], [((1, 2), none), ((1, 3), none)]⟩
      ⟨[1, 2], [((1, 2), none)]⟩ ∧
    specJdist ⟨[1, 2, 3], [((1, 2), none), ((1, 3), none)]⟩
      ⟨[1, 2], [((1, 2), none)]⟩ ≤ 1 ∧
    (specJdist ⟨[1, 2, 3], [((1, 2), none), ((1, 3), none)]⟩
        ⟨[1, 2], [((1, 2), none)]⟩ = 1 ↔
      (uE ⟨[1, 2, 3], [((1, 2), none), ((1, 3), none)]⟩ ∩
          uE ⟨[1, 2], [((1, 2), none)]⟩ = ∅ ∧
        uE ⟨[1, 2, 3], [((1, 2), none), ((1, 3), none)]⟩ ∪
          uE ⟨[1, 2], [((1, 2), none)]⟩ ≠ ∅)) :=
  graph_distance_unweighted_spec ⟨[1, 2, 3], [((1, 2), none), ((1, 3), none)]⟩
    ⟨[1, 2], [((1, 2), none)]⟩ (by decide) (by decide) (by decide) (by decide)

theorem filter_key_singleton {α β : Type} [DecidableEq β] {f : α → β} :
    ∀ {l : List α}, (l.map f).Nodup → ∀ {e : α}, e ∈ l → ∀ {b : β}, f e = b →
      l.filter (fun x => decide (f x = b)) = [e] := by
  intro l
  induction l with
  | nil => intro _ e he; cases he
  | cons a l ih =>
    intro h e he b hb
    rw [List.map_cons, List.nodup_cons] at h
    rcases List.mem_cons.mp he with h1 | h1
    · subst h1
      rw [List.filter_cons_of_pos (by simp [hb])]
      have hnil : l.filter (fun x => decide (f x = b)) = [] := by
        refine List.filter_eq_nil_iff.mpr ?_
        intro x hx hfx
        rw [decide_eq_true_eq] at hfx
        refine h.1 ?_
        have hax : f e = f x := by rw [hb, hfx]
        rw [hax]
        exact List.mem_map.mpr ⟨x, hx, rfl⟩
      rw [hnil]
    · have hne : ¬ f a = b := by
        intro hfe
        refine h.1 ?_
        rw [hfe, ← hb]
        exact List.mem_map.mpr ⟨e, h1, rfl⟩
      rw [List.filter_cons_of_neg (by simpa using hne)]
      exact ih h.2 h1 hb

theorem edges_fst_nodup {g : Graph} (h : g.WF) :
    (g.edges.map (fun e => e.1)).Nodup := by
  refine List.Nodup.of_map normPair ?_
  rw [List.map_map]
  exact h

theorem wOf_eq {g : Graph} (h : g.WF) {e : (Nat × Nat) × Option ℚ}
    (he : e ∈ g.edges) : wOf g e.1 = e.2 := by
  rw [wOf]
  have h1 : g.edges.filter (fun x => decide (x.1 = e.1)) = [e] :=
    filter_key_singleton (edges_fst_nodup h) he rfl
  rw [h1]
  rfl

theorem wU_eq {g : Graph} (h : g.WF) {e : (Nat × Nat) × Option ℚ}
    (he : e ∈ g.edges) : wU g (normPair e.1) = e.2.getD 0 := by
  rw [wU]
  have h1 : g.edges.filter (fun x => decide (normPair x.1 = normPair e.1)) = [e] :=
    filter_key_singleton h he rfl
  rw [h1]
  rfl

theorem wU_eq_getD_wOf {g : Graph} (h : g.WF) {t : Nat × Nat}
    (ht : t ∈ g.tuples) : wU g (normPair t) = (wOf g t).getD 0 := by
  rcases List.mem_map.mp ht with ⟨e, he, het⟩
  rw [← het, wU_eq h he, wOf_eq h he]

theorem normSum_eq (g : Graph) (h : g.WF) (hw : ∀ e ∈ g.edges, e.2.isSome) :
    normSum g = some (specNormSq g) := by
  have key : ∀ t ∈ g.tuples, (wOf g t).map (fun w => w * w) =
      some (((wOf g t).getD 0) * ((wOf g t).getD 0)) := by
    intro t ht
    rcases List.mem_map.mp ht with ⟨e, he, het⟩
    have h1 : wOf g t = e.2 := by rw [← het, wOf_eq h he]
    rcases Option.isSome_iff_exists.mp (hw e he) with ⟨w, hw2⟩
    rw [h1, hw2]
    rfl
  rw [normSum, omap_eq_map _ _ _ key, Option.map_some']
  congr 1
  have hnodup : g.tuples.Nodup := List.Nodup.of_map _ (wf_tuples_nodup_map h)
  have hinj : ∀ x ∈ g.tuples.toFinset, ∀ y ∈ g.tuples.toFinset,
      normPair x = normPair y → x = y := by
    intro x hx y hy hxy
    exact wf_injOn_tuples h x (List.mem_toFinset.mp hx) y (List.mem_toFinset.mp hy) hxy
  rw [specNormSq, uE, Finset.sum_image hinj, List.sum_toFinset _ hnodup]
  refine (congrArg List.sum (List.map_congr_left ?_)).symm
  intro t ht
  rw [wU_eq_getD_wOf h ht, pow_two]

theorem dotProd_eq (g0 g1 : Graph) (h0 : g0.WF) (h1 : g1.WF)
    (hoc : OrientConsistent g0 g1)
    (hw0 : ∀ e ∈ g0.edges, e.2.isSome) (hw1 : ∀ e ∈ g1.edges, e.2.isSome) :
    dotProd g0 g1 = some (specDot g0 g1) := by
  have hmem : ∀ t ∈ (g1.tuples.inter g0.tuples).dedup,
      t ∈ g1.tuples ∧ t ∈ g0.tuples := by
    intro t ht
    rw [List.mem_dedup] at ht
    exact List.mem_inter_iff.mp ht
  have key : ∀ t ∈ (g1.tuples.inter g0.tuples).dedup,
      (match wOf g0 t, wOf g1 t with
       | some a, some b => some (a * b)
       | _, _ => none) =
      some (((wOf g0 t).getD 0) * ((wOf g1 t).getD 0)) := by
    intro t ht
    rcases List.mem_map.mp (hmem t ht).2 with ⟨e0, he0, he0t⟩
    rcases List.mem_map.mp (hmem t ht).1 with ⟨e1, he1, he1t⟩
    have hv0 : wOf g0 t = e0.2 := by rw [← he0t, wOf_eq h0 he0]
    have hv1 : wOf g1 t = e1.2 := by rw [← he1t, wOf_eq h1 he1]
    rcases Option.isSome_iff_exists.mp (hw0 e0 he0) with ⟨w0, hw02⟩
    rcases Option.isSome_iff_exists.mp (hw1 e1 he1) with ⟨w1, hw12⟩
    rw [hv0, hv1, hw02, hw12]
    rfl
  rw [dotProd, omap_eq_map _ _ _ key, Option.map_some']
  congr 1
  have hnodup : (g1.tuples.inter g0.tuples).dedup.Nodup := List.nodup_dedup _
  have htoF : (g1.tuples.inter g0.tuples).dedup.toFinset =
      g1.tuples.toFinset ∩ g0.tuples.toFinset := by
    ext t
    rw [List.mem_toFinset, List.mem_dedup, Finset.mem_inter, List.mem_toFinset,
      List.mem_toFinset]
    exact List.mem_inter_iff
  have hinj : ∀ x ∈ g1.tuples.toFinset ∩ g0.tuples.toFinset,
      ∀ y ∈ g1.tuples.toFinset ∩ g0.tuples.toFinset,
      normPair x = normPair y → x = y := by
    intro x hx y hy hxy
    rw [Finset.mem_inter] at hx hy
    exact wf_injOn_tuples h0 x (List.mem_toFinset.mp hx.2) y
      (List.mem_toFinset.mp hy.2) hxy
  rw [specDot, ← image_inter_normPair g0 g1 hoc, Finset.sum_image hinj, ← htoF,
    List.sum_toFinset _ hnodup]
  refine (congrArg List.sum (List.map_congr_left ?_)).symm
  intro t ht
  rw [wU_eq_getD_wOf h0 (hmem t ht).2, wU_eq_getD_wOf h1 (hmem t ht).1]

/-- C5 (amended): whenever the two graphs store every shared unordered edge
with the same tuple orientation and every edge of both graphs carries a
weight, weighted `graph_distance` is the Tanimoto distance
`1 - dot/(norm0 + norm1 - dot)` over the unordered edge identity, with an
absent edge counting as weight 0 (the denominator being nonzero by
hypothesis). -/
theorem graph_distance_weighted_spec (g0 g1 : Graph)
    (h0 : g0.WF) (h1 : g1.WF) (hoc : OrientConsistent g0 g1)
    (hw0 : ∀ e ∈ g0.edges, e.2.isSome) (hw1 : ∀ e ∈ g1.edges, e.2.isSome)
    (hden : specNormSq g0 + specNormSq g1 - specDot g0 g1 ≠ 0) :
    graph_distance g0 g1 true =
      some (1 - specDot g0 g1 /
        (specNormSq g0 + specNormSq g1 - specDot g0 g1)) := by
  rw [graph_distance]
  simp only [Bool.true_eq_false, if_false]
  rw [dotProd_eq g0 g1 h0 h1 hoc hw0 hw1, normSum_eq g1 h1 hw1, normSum_eq g0 h0 hw0]
  show (if specNormSq g0 + specNormSq g1 - specDot g0 g1 = 0 then none
      else some (1 - specDot g0 g1 /
        (specNormSq g0 + specNormSq g1 - specDot g0 g1))) = _
  rw [if_neg hden]

/-- C5 counterexample: the same weighted undirected edge `{0, 8}` stored with
opposite tuple orientations: the claim's Tanimoto distance is
`1 - 1/(1+1-1) = 0`, but the code's raw tuple intersection is empty, so the
dot product is 0 and the code returns 1. -/
theorem graph_distance_weighted_cex :
    graph_distance ⟨[0, 8], [((0, 8), some 1)]⟩ ⟨[8, 0], [((8, 0), some 1)]⟩ true =
      some 1 ∧
    1 - specDot ⟨[0, 8], [((0, 8), some 1)]⟩ ⟨[8, 0], [((8, 0), some 1)]⟩ /
      (specNormSq ⟨[0, 8], [((0, 8), some 1)]⟩ +
        specNormSq ⟨[8, 0], [((8, 0), some 1)]⟩ -
        specDot ⟨[0, 8], [((0, 8), some 1)]⟩ ⟨[8, 0], [((8, 0), some 1)]⟩) = 0 ∧
    (1 : ℚ) ≠ 0 := by
  have hw0 : wOf ⟨[0, 8], [((0, 8), some 1)]⟩ (0, 8) = some 1 := by decide
  have hw1 : wOf ⟨[8, 0], [((8, 0), some 1)]⟩ (8, 0) = some 1 := by decide
  have hu0 : wU ⟨[0, 8], [((0, 8), some 1)]⟩ (0, 8) = 1 := by decide
  have hu1 : wU ⟨[8, 0], [((8, 0), some 1)]⟩ (0, 8) = 1 := by decide
  have hdot : dotProd ⟨[0, 8], [((0, 8), some 1)]⟩ ⟨[8, 0], [((8, 0), some 1)]⟩ =
      some 0 := by
    rw [dotProd, show ((Graph.mk [8, 0] [((8, 0), some 1)]).tuples.inter
      (Graph.mk [0, 8] [((0, 8), some 1)]).tuples).dedup = [] from by decide]
    rfl
  have hn0 : normSum ⟨[0, 8], [((0, 8), some 1)]⟩ = some 1 := by
    norm_num [normSum, omap, Graph.tuples, hw0]
  have hn1 : normSum ⟨[8, 0], [((8, 0), some 1)]⟩ = some 1 := by
    norm_num [normSum, omap, Graph.tuples, hw1]
  have hsd : specDot ⟨[0, 8], [((0, 8), some 1)]⟩ ⟨[8, 0], [((8, 0), some 1)]⟩ =
      1 := by
    rw [specDot, show uE ⟨[0, 8], [((0, 8), some 1)]⟩ ∩
        uE ⟨[8, 0], [((8, 0), some 1)]⟩ = {(0, 8)} from by decide,
      Finset.sum_singleton, hu0, hu1]
    norm_num
  have hs0 : specNormSq ⟨[0, 8], [((0, 8), some 1)]⟩ = 1 := by
    rw [specNormSq, show uE ⟨[0, 8], [((0, 8), some 1)]⟩ = {(0, 8)} from by decide,
      Finset.sum_singleton, hu0]
    norm_num
  have hs1 : specNormSq ⟨[8, 0], [((8, 0), some 1)]⟩ = 1 := by
    rw [specNormSq, show uE ⟨[8, 0], [((8, 0), some 1)]⟩ = {(0, 8)} from by decide,
      Finset.sum_singleton, hu1]
    norm_num
  refine ⟨?_, ?_, by norm_num⟩
  · rw [graph_distance]
    simp only [Bool.true_eq_false, if_false]
    rw [hdot, hn0, hn1]
    show (if (1 : ℚ) + 1 - 0 = 0 then none else some (1 - 0 / (1 + 1 - 0))) = some 1
    rw [if_neg (by norm_num)]
    norm_num
  · rw [hsd, hs0, hs1]
    norm_num

/-- C5 witness: consistently oriented weighted graphs sharing edge `(1,2)`
with weights 2 and 3: the distance is `1 - 6/(4+9-6) = 1/7`. -/
theorem graph_distance_weighted_witness :
    graph_distance ⟨[1, 2], [((1, 2), some 2)]⟩ ⟨[1, 2], [((1, 2), some 3)]⟩ true =
      some (1 - specDot ⟨[1, 2], [((1, 2), some 2)]⟩ ⟨[1, 2], [((1, 2), some 3)]⟩ /
        (specNormSq ⟨[1, 2], [((1, 2), some 2)]⟩ +
          specNormSq ⟨[1, 2], [((1, 2), some 3)]⟩ -
          specDot ⟨[1, 2], [((1, 2), some 2)]⟩ ⟨[1, 2], [((1, 2), some 3)]⟩)) := by
  refine graph_distance_weighted_spec _ _ (by decide) (by decide) (by decide)
    (by decide) (by decide) ?_
  have hu0 : wU ⟨[1, 2], [((1, 2), some 2)]⟩ (1, 2) = 2 := by decide
  have hu1 : wU ⟨[1, 2], [((1, 2), some 3)]⟩ (1, 2) = 3 := by decide
  have hsd : specDot ⟨[1, 2], [((1, 2), some 2)]⟩ ⟨[1, 2], [((1, 2), some 3)]⟩ =
      6 := by
    rw [specDot, show uE ⟨[1, 2], [((1, 2), some 2)]⟩ ∩
        uE ⟨[1, 2], [((1, 2), some 3)]⟩ = {(1, 2)} from by decide,
      Finset.sum_singleton, hu0, hu1]
    norm_num
  have hs0 : specNormSq ⟨[1, 2], [((1, 2), some 2)]⟩ = 4 := by
    rw [specNormSq, show uE ⟨[1, 2], [((1, 2), some 2)]⟩ = {(1, 2)} from by decide,
      Finset.sum_singleton, hu0]
    norm_num
  have hs1 : specNormSq ⟨[1, 2], [((1, 2), some 3)]⟩ = 9 := by
    rw [specNormSq, show uE ⟨[1, 2], [((1, 2), some 3)]⟩ = {(1, 2)} from by decide,
      Finset.sum_singleton, hu1]
    norm_num
  rw [hsd, hs0, hs1]
  norm_num
